import Mathlib

/-!
Verification development for the tensor-engine core (my-candle).

The autograd engine (`backprop.rs`), the variable cell (`variable.rs`), the
quantized matmul provider (`quantized/mod.rs`), the scalar op registry
(`op.rs`) and the cpu kernel helpers (`cpu/kernels.rs`) are embedded from the
source.  The tensor/layout/shape layer (`tensor.rs`, `layout.rs`, `shape.rs`)
is not part of the provided sources; those operations are modelled from the
specification and are marked as such in their doc comments.
-/

namespace MyCandle

/-! ### Multi-index arithmetic for dense row-major values -/

/-- Product of a list of dimension extents (the element count; empty product
is 1, as in the spec's shape algebra). -/
def prodl : List Nat → Nat
  | [] => 1
  | d :: ds => d * prodl ds

/-- Row-major flattening of a multi-index against a shape. -/
def toFlat : List Nat → List Nat → Nat
  | _ :: ds, i :: is => i * prodl ds + toFlat ds is
  | _, _ => 0

/-- Row-major digits of a flat index against a shape. -/
def toMulti : List Nat → Nat → List Nat
  | [], _ => []
  | _ :: ds, n => (n / prodl ds) :: toMulti ds (n % prodl ds)

/-! ### Dense values

Modelled from the spec: a tensor value is its shape together with its
elements in row-major order.  Scalars are modelled as rationals; dtype
bookkeeping is omitted here because no settled autograd claim depends on it
(the storage-level dtype checks live in the dedicated `CpuStorage` model
below).  Views are materialized: the separate layout model covers strided
claims. -/
structure Value where
  shape : List Nat
  data : List ℚ
  deriving Repr, DecidableEq

/-- Element lookup of a dense value at a multi-index (0 outside range). -/
def Value.getAt (v : Value) (idx : List Nat) : ℚ :=
  v.data.getD (toFlat v.shape idx) 0

/-- All multi-indices of a shape in row-major order. -/
def enumIndices (s : List Nat) : List (List Nat) :=
  (List.range (prodl s)).map (toMulti s)

/-- Modelled from the spec: `broadcast_shape` right-aligns the two shapes,
pads the shorter with leading 1s, and requires equal extents except where one
side is 1. -/
def broadcastDims : List Nat → List Nat → Option (List Nat)
  | [], [] => some []
  | a :: as_, b :: bs =>
    match broadcastDims as_ bs with
    | none => none
    | some cs =>
      if a = b then some (a :: cs)
      else if a = 1 then some (b :: cs)
      else if b = 1 then some (a :: cs)
      else none
  | _, _ => none

/-- `broadcastShape` pads the shorter shape with leading 1s, then zips. -/
def broadcastShape (a b : List Nat) : Option (List Nat) :=
  if a.length ≤ b.length then
    broadcastDims (List.replicate (b.length - a.length) 1 ++ a) b
  else
    broadcastDims a (List.replicate (a.length - b.length) 1 ++ b)

/-- Modelled from the spec: reading a value through zero-stride broadcast
against a (right-aligned) target shape — expanded dims read index 0. -/
def broadcastRead (v : Value) (target : List Nat) (idx : List Nat) : ℚ :=
  let dropped := idx.drop (target.length - v.shape.length)
  let coords := (List.zip v.shape dropped).map (fun p => if p.1 = 1 then 0 else p.2)
  v.getAt coords

/-- Elementwise binary op with broadcasting, per the spec's binary dispatch. -/
def map2Broadcast (f : ℚ → ℚ → ℚ) (a b : Value) : Option Value :=
  match broadcastShape a.shape b.shape with
  | none => none
  | some s =>
    some ⟨s, (enumIndices s).map (fun i => f (broadcastRead a s i) (broadcastRead b s i))⟩

/-- Modelled from the spec: an all-zeros value of a given shape. -/
def zerosV (s : List Nat) : Value := ⟨s, List.replicate (prodl s) 0⟩

/-- Modelled from the spec: an all-ones value of a given shape. -/
def onesV (s : List Nat) : Value := ⟨s, List.replicate (prodl s) 1⟩

/-- Modelled from the spec: elementwise addition with broadcasting. -/
def valueAdd (a b : Value) : Option Value := map2Broadcast (· + ·) a b

/-- Modelled from the spec: elementwise subtraction with broadcasting. -/
def valueSub (a b : Value) : Option Value := map2Broadcast (· - ·) a b

/-- Modelled from the spec: elementwise multiplication with broadcasting. -/
def valueMul (a b : Value) : Option Value := map2Broadcast (· * ·) a b

/-- Modelled from the spec: elementwise division with broadcasting (rational
division stands in for the float division; no settled claim depends on the
division-by-zero behaviour). -/
def valueDiv (a b : Value) : Option Value := map2Broadcast (· / ·) a b

/-- Modelled from the spec: elementwise negation. -/
def valueNeg (a : Value) : Value := ⟨a.shape, a.data.map (fun q => -q)⟩

/-- Modelled from the spec: elementwise square (`sqr`). -/
def valueSqr (a : Value) : Value := ⟨a.shape, a.data.map (fun q => q * q)⟩

/-- Modelled from the spec: `affine(x, mul, add) = mul·x + add` elementwise. -/
def valueAffine (a : Value) (mul add : ℚ) : Value :=
  ⟨a.shape, a.data.map (fun q => q * mul + add)⟩

/-- Modelled from the spec: elementwise map by a scalar function. -/
def valueMap (f : ℚ → ℚ) (a : Value) : Value := ⟨a.shape, a.data.map f⟩

/-- Modelled from the spec: `ge` comparison producing a 0/1 mask. -/
def valueGe (a b : Value) : Option Value :=
  map2Broadcast (fun x y => if y ≤ x then 1 else 0) a b

/-- Modelled from the spec: `eq` comparison producing a 0/1 mask. -/
def valueEqm (a b : Value) : Option Value :=
  map2Broadcast (fun x y => if x = y then 1 else 0) a b

/-- Modelled from the spec: `where_cond(pred, t, f)` — nonzero entries of the
mask pick `t`, zero entries pick `f`; all three broadcast to a common shape. -/
def whereCondV (pred t f : Value) : Option Value :=
  match broadcastShape pred.shape t.shape with
  | none => none
  | some s1 =>
    match broadcastShape s1 f.shape with
    | none => none
    | some s =>
      some ⟨s, (enumIndices s).map (fun i =>
        if broadcastRead pred s i = 0 then broadcastRead f s i else broadcastRead t s i)⟩

/-- Swap the entries of a list at two positions. -/
def swapIdx (l : List Nat) (d1 d2 : Nat) : List Nat :=
  (l.set d1 (l.getD d2 0)).set d2 (l.getD d1 0)

/-- Modelled from the spec: `transpose(d1, d2)` swaps the two dimensions. -/
def transposeV (v : Value) (d1 d2 : Nat) : Option Value :=
  if d1 < v.shape.length ∧ d2 < v.shape.length then
    let s := swapIdx v.shape d1 d2
    some ⟨s, (enumIndices s).map (fun i => v.getAt (swapIdx i d1 d2))⟩
  else none

/-- Modelled from the spec: `t()` transposes the two innermost dimensions. -/
def tV (v : Value) : Option Value :=
  if 2 ≤ v.shape.length then
    transposeV v (v.shape.length - 2) (v.shape.length - 1)
  else none

/-- Modelled from the spec: `reshape` of a dense value reinterprets the data;
the element count must be preserved. -/
def reshapeV (v : Value) (s : List Nat) : Option Value :=
  if prodl s = prodl v.shape then some ⟨s, v.data⟩ else none

/-- Modelled from the spec: `broadcast_as` — the target must be reachable by
padding with leading dims and expanding size-1 dims. -/
def broadcastAsV (v : Value) (s : List Nat) : Option Value :=
  if broadcastShape v.shape s = some s then
    some ⟨s, (enumIndices s).map (broadcastRead v s)⟩
  else none

/-- Modelled from the spec: `narrow(dim, start, len)` requires
`start + len ≤ shape[dim]`. -/
def narrowV (v : Value) (dim start len : Nat) : Option Value :=
  if dim < v.shape.length ∧ start + len ≤ v.shape.getD dim 0 then
    let s := v.shape.set dim len
    some ⟨s, (enumIndices s).map (fun i => v.getAt (i.set dim (i.getD dim 0 + start)))⟩
  else none

/-- Read one element of the concatenation of values along a dimension. -/
def catRead : List Value → Nat → List Nat → ℚ
  | [], _, _ => 0
  | v :: vs, dim, i =>
    let d := v.shape.getD dim 0
    if i.getD dim 0 < d then v.getAt i
    else catRead vs dim (i.set dim (i.getD dim 0 - d))

/-- Modelled from the spec: `cat(tensors, dim)` — all shapes agree outside
`dim`, the output extent along `dim` is the sum. -/
def catV (vs : List Value) (dim : Nat) : Option Value :=
  match vs with
  | [] => none
  | v0 :: _ =>
    let total := (vs.map (fun v => v.shape.getD dim 0)).sum
    let s := v0.shape.set dim total
    if dim < v0.shape.length ∧ vs.all (fun v => v.shape.set dim 0 = v0.shape.set dim 0) then
      some ⟨s, (enumIndices s).map (catRead vs dim)⟩
    else none

/-- A source index is compatible with an output index of a keepdim reduction
when it agrees outside the reduced dims. -/
def compatIdx (dims : List Nat) (i j : List Nat) : Bool :=
  (List.range j.length).all (fun d => dims.contains d || (j.getD d 0 = i.getD d 0))

/-- Modelled from the spec: `sum_keepdim(dims)` — reduced dims become 1. -/
def sumKeepdimV (v : Value) (dims : List Nat) : Option Value :=
  if dims.all (· < v.shape.length) then
    let s := dims.foldl (fun sh d => sh.set d 1) v.shape
    some ⟨s, (enumIndices s).map (fun i =>
      ((enumIndices v.shape).filter (fun j => compatIdx dims i j)).foldl
        (fun acc j => acc + v.getAt j) 0)⟩
  else none

/-- Modelled from the spec: `squeeze(0)` removes a leading dimension of
extent one. -/
def squeeze0V (v : Value) : Option Value :=
  match v.shape with
  | 1 :: rest => some ⟨rest, v.data⟩
  | _ => none

/-- Modelled from the spec: `to_dtype` — the dtype-free value model keeps the
elements (casting back and forth is the identity on the carried rationals). -/
def toDTypeV (v : Value) : Value := v

/-- Modelled from the spec: `to_device` moves storage; values are unchanged. -/
def toDeviceV (v : Value) : Value := v

/-- Batched read for matmul: the batch portion of the index is broadcast
against the operand's batch dims, the two innermost coordinates are direct. -/
def batchRead (v : Value) (bs : List Nat) (idx : List Nat) : ℚ :=
  let vb := v.shape.take (v.shape.length - 2)
  let ib := idx.take bs.length
  let tail := idx.drop bs.length
  let dropped := ib.drop (bs.length - vb.length)
  let coords := (List.zip vb dropped).map (fun p => if p.1 = 1 then 0 else p.2)
  v.getAt (coords ++ tail)

/-- Modelled from the spec: batched `matmul` of `(..B, M, K)` by `(..B, K, N)`
with broadcasting of the leading batch dims. -/
def matmulV (a b : Value) : Option Value :=
  if 2 ≤ a.shape.length ∧ 2 ≤ b.shape.length then
    let ra := a.shape.length
    let rb := b.shape.length
    let m := a.shape.getD (ra - 2) 0
    let k := a.shape.getD (ra - 1) 0
    let k2 := b.shape.getD (rb - 2) 0
    let n := b.shape.getD (rb - 1) 0
    if k = k2 then
      match broadcastShape (a.shape.take (ra - 2)) (b.shape.take (rb - 2)) with
      | none => none
      | some bs =>
        let s := bs ++ [m, n]
        some ⟨s, (enumIndices s).map (fun i =>
          let ib := i.take bs.length
          let mi := i.getD bs.length 0
          let nj := i.getD (bs.length + 1) 0
          (List.range k).foldl (fun acc t =>
            acc + batchRead a bs (ib ++ [mi, t]) * batchRead b bs (ib ++ [t, nj])) 0)⟩
    else none
  else none

/-- Index values live in the data as rationals; they are read back as
naturals (the spec requires a `U32` index tensor). -/
def natIdx (q : ℚ) : Nat := q.num.toNat

/-- Modelled from the spec: `gather(x, idx, dim)` — output shares `idx`'s
shape; every index value must be below `x.shape[dim]`. -/
def gatherV (x idx : Value) (dim : Nat) : Option Value :=
  if dim < x.shape.length ∧ idx.shape.length = x.shape.length ∧
      idx.shape.set dim 0 = x.shape.set dim 0 then
    if idx.data.all (fun q => natIdx q < x.shape.getD dim 0) then
      some ⟨idx.shape, (enumIndices idx.shape).map (fun i =>
        x.getAt (i.set dim (natIdx (idx.getAt i))))⟩
    else none
  else none

/-- Modelled from the spec: `scatter_add(init, idx, src, dim)` — a copy of
`init` with every `src` element accumulated at the indexed position. -/
def scatterAddV (init idx src : Value) (dim : Nat) : Option Value :=
  if dim < init.shape.length ∧ idx.shape = src.shape ∧
      src.shape.length = init.shape.length ∧
      src.shape.set dim 0 = init.shape.set dim 0 then
    if idx.data.all (fun q => natIdx q < init.shape.getD dim 0) then
      some ⟨init.shape, (enumIndices src.shape).foldl (fun data i =>
        let tgt := toFlat init.shape (i.set dim (natIdx (idx.getAt i)))
        data.set tgt (data.getD tgt 0 + src.getAt i)) init.data⟩
    else none
  else none

/-- Modelled from the spec: `index_select(x, idx, dim)` — `idx` is 1-D and the
output replaces `x.shape[dim]` with its length. -/
def indexSelectV (x idx : Value) (dim : Nat) : Option Value :=
  if dim < x.shape.length ∧ idx.shape.length = 1 ∧
      idx.data.all (fun q => natIdx q < x.shape.getD dim 0) then
    let s := x.shape.set dim idx.data.length
    some ⟨s, (enumIndices s).map (fun i =>
      x.getAt (i.set dim (natIdx (idx.data.getD (i.getD dim 0) 0))))⟩
  else none

/-- Modelled from the spec: `index_add(init, idx, src, dim)` — accumulates the
`k`-th slice of `src` into the `idx[k]`-th slice of `init`. -/
def indexAddV (init idx src : Value) (dim : Nat) : Option Value :=
  if dim < init.shape.length ∧ idx.shape.length = 1 ∧
      idx.data.length = src.shape.getD dim 0 ∧
      src.shape.length = init.shape.length ∧
      src.shape.set dim 0 = init.shape.set dim 0 ∧
      idx.data.all (fun q => natIdx q < init.shape.getD dim 0) then
    some ⟨init.shape, (enumIndices src.shape).foldl (fun data i =>
      let j := natIdx (idx.data.getD (i.getD dim 0) 0)
      let tgt := toFlat init.shape (i.set dim j)
      data.set tgt (data.getD tgt 0 + src.getAt i)) init.data⟩
  else none

/-- Modelled from the spec: the scalar transcendental functions used by the
backward pass (`sin`, `cos`).  No settled claim depends on their numeric
values, so the theorems below hold for every interpretation. -/
structure TransOps where
  sin : ℚ → ℚ
  cos : ℚ → ℚ

/-- A trivial interpretation of the transcendental scalar functions, used to
instantiate witnesses (the statements never depend on these values). -/
def TransOps.trivialOps : TransOps := ⟨fun _ => 0, fun _ => 0⟩

/-- `broadcast_back` from `backprop.rs`: expand a reduced gradient back to the
argument's shape, inserting the keepdim shape first when keepdim was false. -/
def broadcastBack (argShape : List Nat) (v : Value) (reducedDims : List Nat) :
    Option Value :=
  if argShape.length = v.shape.length then broadcastAsV v argShape
  else (reshapeV v reducedDims).bind (fun r => broadcastAsV r argShape)

/-! ### The op tape and the tensor DAG

`op.rs` defines the tagged union of recorded operations; `backprop.rs` walks
it.  The Rust DAG of `Arc`-shared tensors is embedded as a list of nodes
indexed by tensor id (ids are the monotonic creation counter, so every input
of an op has a smaller id than the tensor it produces). -/

/-- Outcome type of the reverse pass.  `bns` is `Error::BackwardNotSupported`,
`verr` covers every error bubbled up from tensor operations, and `panicGrad`
models the `grads.remove(node).unwrap()` panic on a missing entry. -/
inductive BErr where
  | bns (op : String)
  | verr (msg : String)
  | panicGrad
  deriving Repr, DecidableEq

/-- `BinaryOp` from `op.rs`. -/
inductive BinaryOpK where
  | add | mul | sub | div
  deriving Repr, DecidableEq

/-- `UnaryOp` from `op.rs`. -/
inductive UnaryOpK where
  | exp | log | sin | cos | abs | neg | recip | sqr | sqrt | gelu | relu
  deriving Repr, DecidableEq

/-- `CmpOp` from `op.rs`. -/
inductive CmpOpK where
  | eq | ne | le | ge | lt | gt
  deriving Repr, DecidableEq

/-- `ReduceOp` from `op.rs`. -/
inductive ReduceOpK where
  | sum | min | max | argMin | argMax
  deriving Repr, DecidableEq

/-- A user custom op over one input: its name and its backward function
(taking the argument, result and result-gradient values). -/
structure CustomF1 where
  name : String
  bwd : Value → Value → Value → Except BErr (Option Value)

/-- A user custom op over two inputs. -/
structure CustomF2 where
  name : String
  bwd : Value → Value → Value → Value → Except BErr (Option Value × Option Value)

/-- A user custom op over three inputs. -/
structure CustomF3 where
  name : String
  bwd : Value → Value → Value → Value → Value →
    Except BErr (Option Value × Option Value × Option Value)

/-- `Op` from `op.rs`: the tape entry of a produced tensor, with input tensors
referenced by id. -/
inductive OpK where
  | binary (lhs rhs : Nat) (k : BinaryOpK)
  | unary (arg : Nat) (k : UnaryOpK)
  | cmp (arg : Nat) (k : CmpOpK)
  | reduce (arg : Nat) (k : ReduceOpK) (reducedShape : List Nat)
  | matmul (lhs rhs : Nat)
  | gather (arg idx : Nat) (dim : Nat)
  | scatterAdd (init idx src : Nat) (dim : Nat)
  | indexSelect (arg idx : Nat) (dim : Nat)
  | indexAdd (init idx src : Nat) (dim : Nat)
  | whereCond (pred t f : Nat)
  | conv1d (arg kernel : Nat) (padding stride : Nat)
  | conv2d (arg kernel : Nat) (padding stride : Nat)
  | avgPool2d (arg : Nat) (kernelSize stride : Nat × Nat)
  | maxPool2d (arg : Nat) (kernelSize stride : Nat × Nat)
  | upsampleNearest2d (arg : Nat)
  | cat (args : List Nat) (dim : Nat)
  | affine (arg : Nat) (mul add : ℚ)
  | toDType (arg : Nat)
  | copy (arg : Nat)
  | broadcast (arg : Nat)
  | narrow (arg : Nat) (dim start len : Nat)
  | reshape (arg : Nat)
  | toDevice (arg : Nat)
  | transpose (arg : Nat) (d1 d2 : Nat)
  | elu (arg : Nat) (alpha : ℚ)
  | customOp1 (arg : Nat) (c : CustomF1)
  | customOp2 (a1 a2 : Nat) (c : CustomF2)
  | customOp3 (a1 a2 a3 : Nat) (c : CustomF3)

/-- A tensor node: its variable flag, its stored value and its optional tape
entry (the layout is materialized into the value; ids index the graph). -/
structure Node where
  isVar : Bool
  value : Value
  op : Option OpK

/-- The tensor DAG: the node with id `i` sits at position `i`. -/
def Graph := List Node

/-- Lookup of a tensor by id. -/
def nodeAt (g : Graph) (i : Nat) : Option Node := List.get? g i

/-- All op inputs of a tape entry (the tensors the op was recorded over). -/
def opInputs : OpK → List Nat
  | .binary lhs rhs _ => [lhs, rhs]
  | .unary a _ => [a]
  | .cmp a _ => [a]
  | .reduce a _ _ => [a]
  | .matmul lhs rhs => [lhs, rhs]
  | .gather a i _ => [a, i]
  | .scatterAdd a b c _ => [a, b, c]
  | .indexSelect a i _ => [a, i]
  | .indexAdd a b c _ => [a, b, c]
  | .whereCond a b c => [a, b, c]
  | .conv1d a k _ _ => [a, k]
  | .conv2d a k _ _ => [a, k]
  | .avgPool2d a _ _ => [a]
  | .maxPool2d a _ _ => [a]
  | .upsampleNearest2d a => [a]
  | .cat args _ => args
  | .affine a _ _ => [a]
  | .toDType a => [a]
  | .copy a => [a]
  | .broadcast a => [a]
  | .narrow a _ _ _ => [a]
  | .reshape a => [a]
  | .toDevice a => [a]
  | .transpose a _ _ => [a]
  | .elu a _ => [a]
  | .customOp1 a _ => [a]
  | .customOp2 a b _ => [a, b]
  | .customOp3 a b c _ => [a, b, c]

/-- The inputs the `sorted_nodes` walker actually recurses into: identical to
`opInputs` except that `Affine` with `mul == 0` prunes its argument
(`backprop.rs`, the `Op::Affine` arm of `walk`). -/
def walkInputs : OpK → List Nat
  | .affine a mul _ => if mul = 0 then [] else [a]
  | o => opInputs o

/-- The op inputs of a node (empty without a tape entry). -/
def opInputsN (n : Node) : List Nat :=
  match n.op with
  | none => []
  | some o => opInputs o

/-- The walker inputs of the node with a given id; variables are leaves and
are not descended into. -/
def walkInputsOfId (g : Graph) (i : Nat) : List Nat :=
  match nodeAt g i with
  | none => []
  | some node =>
    if node.isVar then []
    else
      match node.op with
      | none => []
      | some o => walkInputs o

/-- Well-formedness of the embedded DAG: every recorded input has a smaller
id than the tensor it produces (tensor ids are a monotonic creation counter,
so this holds for every graph the engine can build). -/
def wfb (g : Graph) : Bool :=
  (List.range (List.length g)).all (fun i =>
    match nodeAt g i with
    | none => true
    | some node => (opInputsN node).all (· < i))

/-- `already_seen` of the walker, modelled as an association list. -/
def seenFind : List (Nat × Bool) → Nat → Option Bool
  | [], _ => none
  | (k, b) :: rest, i => if k = i then some b else seenFind rest i

/-- Insertion into `already_seen` (the walker inserts each id once). -/
def seenInsert (s : List (Nat × Bool)) (i : Nat) (b : Bool) : List (Nat × Bool) :=
  (i, b) :: s

/-- The recursive `walk` of `Tensor::sorted_nodes` (`backprop.rs`): memoized
depth-first descent that or-accumulates the `track_grad` flag and pushes a
node after its inputs whenever the flag is set.  Recursion into an input `j`
is guarded by `j < i` — the monotonic-id invariant of the tape, which also
bounds the recursion depth: `fuel` only needs to exceed the node id, so the
`fuel = 0` branch is unreachable from `sortedNodes` on well-formed graphs. -/
def walkF (g : Graph) : Nat → Nat → List (Nat × Bool) → List Nat →
    Bool × List (Nat × Bool) × List Nat
  | 0, _, seen, nodes => (false, seen, nodes)
  | fuel + 1, i, seen, nodes =>
    match seenFind seen i with
    | some tg => (tg, seen, nodes)
    | none =>
      let r :=
        match nodeAt g i with
        | none => (false, seen, nodes)
        | some node =>
          if node.isVar then (true, seen, nodes)
          else
            match node.op with
            | none => (false, seen, nodes)
            | some o =>
              (walkInputs o).foldl (fun acc j =>
                if j < i then
                  let r1 := walkF g fuel j acc.2.1 acc.2.2
                  (acc.1 || r1.1, r1.2)
                else acc) (false, seen, nodes)
      if r.1 then (r.1, seenInsert r.2.1 i r.1, r.2.2 ++ [i])
      else (r.1, seenInsert r.2.1 i r.1, r.2.2)

/-- `Tensor::sorted_nodes`: run the walk from the root (with fuel `root + 1`,
enough for every descent through smaller ids) and reverse, so the root comes
first and leaves last. -/
def sortedNodes (g : Graph) (root : Nat) : List Nat :=
  ((walkF g (root + 1) root [] []).2.2).reverse

/-- Denotational version of the walker's `track_grad` flag: a node tracks
gradients iff it is a variable or some walker input tracks (same id guard
and fuel discipline as the walker). -/
def tracksF (g : Graph) : Nat → Nat → Bool
  | 0, _ => false
  | fuel + 1, i =>
    match nodeAt g i with
    | none => false
    | some node =>
      if node.isVar then true
      else
        match node.op with
        | none => false
        | some o => (walkInputs o).any (fun j => decide (j < i) && tracksF g fuel j)

/-- Whether a node's subtree contains a variable along walker edges. -/
def tracks (g : Graph) (i : Nat) : Bool :=
  tracksF g (i + 1) i

/-- Reachability along the edges the walker follows: descend from a non-var
node through its (pruned) walker inputs. -/
inductive Reaches (g : Graph) : Nat → Nat → Prop where
  | refl (i : Nat) : Reaches g i i
  | step {i j k : Nat} (node : Node) (o : OpK) :
      nodeAt g i = some node → node.isVar = false → node.op = some o →
      j ∈ walkInputs o → Reaches g j k → Reaches g i k

/-! ### The reverse pass (`Tensor::backward` and `GradStore`) -/

/-- `GradStore`: a map from tensor id to accumulated gradient, modelled as an
association list with erase-on-insert (hash-map semantics). -/
def Store := List (Nat × Value)

/-- `GradStore::get` by id. -/
def storeFind : Store → Nat → Option Value
  | [], _ => none
  | (k, v) :: rest, i => if k = i then some v else storeFind rest i

/-- Drop every binding of an id. -/
def storeErase (st : Store) (i : Nat) : Store :=
  st.filter (fun p => p.1 != i)

/-- `GradStore::insert` (replacing any previous binding). -/
def storeInsert (st : Store) (i : Nat) (v : Value) : Store :=
  (i, v) :: storeErase st i

/-- `GradStore::remove`: the binding and the store without it. -/
def storeRemove (st : Store) (i : Nat) : Option (Value × Store) :=
  match storeFind st i with
  | none => none
  | some v => some (v, storeErase st i)

/-- Lift a value-level op into the reverse pass's error monad. -/
def liftV : Option Value → Except BErr Value
  | some v => .ok v
  | none => .error (.verr "tensor op failed")

/-- `zeros_like` of the tensor with a given id. -/
def zerosLikeId (g : Graph) (i : Nat) : Except BErr Value :=
  match nodeAt g i with
  | some n => .ok (zerosV n.value.shape)
  | none => .error (.verr "missing tensor")

/-- The stored value of the tensor with a given id. -/
def valueOf (g : Graph) (i : Nat) : Except BErr Value :=
  match nodeAt g i with
  | some n => .ok n.value
  | none => .error (.verr "missing tensor")

/-- The shape of the tensor with a given id. -/
def shapeOf (g : Graph) (i : Nat) : Except BErr (List Nat) :=
  match nodeAt g i with
  | some n => .ok n.value.shape
  | none => .error (.verr "missing tensor")

/-- The `or_insert`-then-assign pattern of the reverse pass: fetch the
accumulated gradient (zeros when absent) and replace it with `f` of it. -/
def modifyGrad (g : Graph) (st : Store) (i : Nat) (f : Value → Except BErr Value) :
    Except BErr Store := do
  let cur ←
    match storeFind st i with
    | some v => pure v
    | none => zerosLikeId g i
  let v ← f cur
  pure (storeInsert st i v)

/-- `*sum_grad = sum_grad.add(&contrib)?`. -/
def accAdd (g : Graph) (st : Store) (i : Nat) (contrib : Value) : Except BErr Store :=
  modifyGrad g st i (fun cur => liftV (valueAdd cur contrib))

/-- `*sum_grad = sum_grad.sub(&contrib)?`. -/
def accSub (g : Graph) (st : Store) (i : Nat) (contrib : Value) : Except BErr Store :=
  modifyGrad g st i (fun cur => liftV (valueSub cur contrib))

/-- The `Op::Cat` arm of the reverse pass: narrow the incoming gradient along
the cat dimension, one argument at a time, advancing the start index. -/
def catGrads (g : Graph) (dim : Nat) (grad : Value) :
    List Nat → Nat → Store → Except BErr Store
  | [], _, st => .ok st
  | a :: rest, startIdx, st => do
    let ash ← shapeOf g a
    let len := ash.getD dim 0
    let agrad ← liftV (narrowV grad dim startIdx len)
    let st ← accAdd g st a agrad
    catGrads g dim grad rest (startIdx + len) st

/-- Iterated `squeeze(0)` (the `Op::Broadcast` arm squeezes every inserted
leading dim). -/
def squeezeN : Nat → Value → Except BErr Value
  | 0, v => .ok v
  | n + 1, v => do squeezeN n (← liftV (squeeze0V v))

/-- The shared `Op::Reduce(Max/Min)` arm: mask by equality with the
broadcast-back result and accumulate the masked gradient. -/
def reduceMaxMinGrad (g : Graph) (st : Store) (arg : Nat) (rdims : List Nat)
    (nodeVal grad : Value) : Except BErr Store := do
  let ash ← shapeOf g arg
  let av ← valueOf g arg
  let nodeB ← liftV (broadcastBack ash nodeVal rdims)
  let gradB ← liftV (broadcastBack ash grad rdims)
  let m ← liftV (valueEqm nodeB av)
  let q ← liftV (valueMul (toDTypeV m) gradB)
  modifyGrad g st arg (fun cur => do
    let b ← liftV (broadcastAsV q cur.shape)
    liftV (valueAdd cur b))

/-- One iteration of the reverse loop of `Tensor::backward`: skip variables,
pop the node's accumulated gradient (panicking when absent, like the source's
`unwrap`), then dispatch on the tape entry and accumulate the per-input
contributions. -/
def processOne (g : Graph) (tr : TransOps) (st : Store) (i : Nat) :
    Except BErr Store := do
  match nodeAt g i with
  | none => .error (.verr "missing tensor")
  | some node =>
    if node.isVar then .ok st
    else
      match storeRemove st i with
      | none => .error .panicGrad
      | some (grad, st) =>
        match node.op with
        | none => .ok st
        | some op =>
          match op with
          | .binary lhs rhs .add => do
            let st ← accAdd g st lhs grad
            accAdd g st rhs grad
          | .binary lhs rhs .sub => do
            let st ← accAdd g st lhs grad
            accSub g st rhs grad
          | .binary lhs rhs .mul => do
            let rv ← valueOf g rhs
            let lg ← liftV (valueMul grad rv)
            let st ← accAdd g st lhs lg
            let lv ← valueOf g lhs
            let rg ← liftV (valueMul grad lv)
            accAdd g st rhs rg
          | .binary lhs rhs .div => do
            let rv ← valueOf g rhs
            let lg ← liftV (valueDiv grad rv)
            let st ← accAdd g st lhs lg
            let lv ← valueOf g lhs
            let p ← liftV (valueMul grad lv)
            let rg ← liftV (valueDiv p (valueSqr rv))
            accSub g st rhs rg
          | .whereCond pred t f => do
            let pv ← valueOf g pred
            let zeros := zerosV grad.shape
            let tg ← liftV (whereCondV pv grad zeros)
            let st ← accAdd g st t tg
            let fg ← liftV (whereCondV pv zeros grad)
            accAdd g st f fg
          | .conv1d _ _ _ _ => .error (.bns "conv1d")
          | .conv2d _ _ _ _ => .error (.bns "conv2d")
          | .avgPool2d _ _ _ => .error (.bns "avg-pool2d")
          | .maxPool2d _ _ _ => .error (.bns "max-pool2d")
          | .upsampleNearest2d _ => .error (.bns "upsample-nearest2d")
          | .gather arg idx dim => do
            let iv ← valueOf g idx
            modifyGrad g st arg (fun cur => liftV (scatterAddV cur iv grad dim))
          | .scatterAdd init idx src dim => do
            let st ← accAdd g st init grad
            let iv ← valueOf g idx
            let sg ← liftV (gatherV grad iv dim)
            accAdd g st src sg
          | .indexAdd init idx src dim => do
            let st ← accAdd g st init grad
            let iv ← valueOf g idx
            let sg ← liftV (indexSelectV grad iv dim)
            accAdd g st src sg
          | .indexSelect arg idx dim => do
            let iv ← valueOf g idx
            modifyGrad g st arg (fun cur => liftV (indexAddV cur iv grad dim))
          | .matmul lhs rhs => do
            let rv ← valueOf g rhs
            let rt ← liftV (tV rv)
            let lg ← liftV (matmulV grad rt)
            let st ← accAdd g st lhs lg
            let lv ← valueOf g lhs
            let lt ← liftV (tV lv)
            let rg ← liftV (matmulV lt grad)
            accAdd g st rhs rg
          | .cat args dim => catGrads g dim grad args 0 st
          | .broadcast arg => do
            let argDims ← shapeOf g arg
            let nodeDims := node.value.shape
            let left := nodeDims.length - argDims.length
            let sumDims := (List.range left) ++
              (((nodeDims.drop left).zip argDims).enum.filterMap
                (fun p => if p.2.1 ≠ p.2.2 then some (p.1 + left) else none))
            let ag ← liftV (sumKeepdimV grad sumDims)
            let ag ← squeezeN left ag
            modifyGrad g st arg (fun cur => do
              let bg ← liftV (broadcastAsV ag cur.shape)
              liftV (valueAdd cur bg))
          | .reduce arg .sum rdims => do
            let ash ← shapeOf g arg
            let grad ← liftV (broadcastBack ash grad rdims)
            accAdd g st arg grad
          | .cmp _ _ => .ok st
          | .reduce arg .max rdims => reduceMaxMinGrad g st arg rdims node.value grad
          | .reduce arg .min rdims => reduceMaxMinGrad g st arg rdims node.value grad
          | .toDType arg =>
            modifyGrad g st arg (fun cur => liftV (valueAdd cur (toDTypeV grad)))
          | .copy arg => accAdd g st arg grad
          | .affine arg mul _ => do
            let ag := valueAffine grad mul 0
            accAdd g st arg ag
          | .unary arg .log => do
            let av ← valueOf g arg
            let q ← liftV (valueDiv grad av)
            accAdd g st arg q
          | .unary arg .sin => do
            let av ← valueOf g arg
            let q ← liftV (valueMul grad (valueMap tr.cos av))
            accAdd g st arg q
          | .unary arg .cos => do
            let av ← valueOf g arg
            let q ← liftV (valueMul grad (valueMap tr.sin av))
            accSub g st arg q
          | .unary arg .abs => do
            let av ← valueOf g arg
            let ones := onesV av.shape
            let mask ← liftV (valueGe av (zerosV av.shape))
            let absGrad ← liftV (whereCondV mask ones (valueNeg ones))
            let q ← liftV (valueMul grad absGrad)
            accAdd g st arg q
          | .unary arg .exp => do
            let q ← liftV (valueMul grad node.value)
            accAdd g st arg q
          | .unary arg .neg => accSub g st arg grad
          | .unary arg .recip => do
            let av ← valueOf g arg
            let q ← liftV (valueDiv grad (valueSqr av))
            accSub g st arg q
          | .narrow arg dim startIdx len => do
            let argDims ← shapeOf g arg
            let leftPad := if startIdx = 0 then none
              else some (zerosV (argDims.set dim startIdx))
            let rightLen := argDims.getD dim 0 - startIdx - len
            let rightPad := if rightLen = 0 then none
              else some (zerosV (argDims.set dim rightLen))
            let ag ←
              match leftPad, rightPad with
              | none, none => pure grad
              | some l, none => liftV (catV [l, grad] dim)
              | none, some r => liftV (catV [grad, r] dim)
              | some l, some r => liftV (catV [l, grad, r] dim)
            accAdd g st arg ag
          | .reduce _ .argMin _ => .ok st
          | .reduce _ .argMax _ => .ok st
          | .reshape arg => do
            let ash ← shapeOf g arg
            let ag ← liftV (reshapeV grad ash)
            accAdd g st arg ag
          | .unary _ .gelu => .error (.bns "gelu")
          | .unary arg .relu => do
            let av ← valueOf g arg
            let mask ← liftV (valueGe av (zerosV av.shape))
            let q ← liftV (valueMul grad (toDTypeV mask))
            accAdd g st arg q
          | .elu _ _ => .error (.bns "elu")
          | .customOp1 arg c => do
            let av ← valueOf g arg
            match ← c.bwd av node.value grad with
            | none => .ok st
            | some ag => accAdd g st arg ag
          | .customOp2 a1 a2 c => do
            let v1 ← valueOf g a1
            let v2 ← valueOf g a2
            let (g1, g2) ← c.bwd v1 v2 node.value grad
            let st ← match g1 with
              | none => pure st
              | some ag => accAdd g st a1 ag
            match g2 with
            | none => .ok st
            | some ag => accAdd g st a2 ag
          | .customOp3 a1 a2 a3 c => do
            let v1 ← valueOf g a1
            let v2 ← valueOf g a2
            let v3 ← valueOf g a3
            let (g1, g2, g3) ← c.bwd v1 v2 v3 node.value grad
            let st ← match g1 with
              | none => pure st
              | some ag => accAdd g st a1 ag
            let st ← match g2 with
              | none => pure st
              | some ag => accAdd g st a2 ag
            match g3 with
            | none => .ok st
            | some ag => accAdd g st a3 ag
          | .unary arg .sqr => do
            let av ← valueOf g arg
            let p ← liftV (valueMul av grad)
            let ag := valueAffine p 2 0
            accAdd g st arg ag
          | .unary arg .sqrt => do
            let q ← liftV (valueDiv grad node.value)
            let ag := valueAffine q (1 / 2) 0
            accAdd g st arg ag
          | .toDevice arg =>
            modifyGrad g st arg (fun cur => liftV (valueAdd cur (toDeviceV grad)))
          | .transpose arg d1 d2 => do
            let ag ← liftV (transposeV grad d1 d2)
            accAdd g st arg ag

/-- The reverse loop of `Tensor::backward` over the sorted node list. -/
def processLoop (g : Graph) (tr : TransOps) : List Nat → Store → Except BErr Store
  | [], st => .ok st
  | n :: rest, st => do
    let st ← processOne g tr st n
    processLoop g tr rest st

/-- `Tensor::backward`: seed the root with ones, then run the reverse loop
over `sorted_nodes`. -/
def backward (g : Graph) (tr : TransOps) (root : Nat) : Except BErr Store :=
  match nodeAt g root with
  | none => .error (.verr "missing tensor")
  | some n =>
    processLoop g tr (sortedNodes g root) (storeInsert [] root (onesV n.value.shape))

/-! ### Strided layouts and views

Modelled from the spec (§3, §4.A): the layout/shape layer (`layout.rs`,
`shape.rs`, the view methods of `tensor.rs`) is not among the provided
sources. -/

/-- Modelled from the spec: a layout is the triple (shape, strides, offset);
strides are in elements. -/
structure Layout where
  shape : List Nat
  strides : List Nat
  offset : Nat
  deriving Repr, DecidableEq

/-- Row-major default strides: `strides[i] = product(shape[i+1..])`. -/
def rowMajorStrides : List Nat → List Nat
  | [] => []
  | _ :: ds => prodl ds :: rowMajorStrides ds

/-- Modelled from the spec (§3): a layout is contiguous in row-major order
when its strides are the defaults and its start offset is 0. -/
def Layout.isContiguous (l : Layout) : Bool :=
  l.strides == rowMajorStrides l.shape && l.offset == 0

/-- Storage position addressed by a multi-index through a layout. -/
def stridedPos (l : Layout) (idx : List Nat) : Nat :=
  l.offset + ((l.strides.zip idx).map (fun p => p.1 * p.2)).sum

/-- A tensor handle over strided storage: its id, the identity of the shared
storage object, the storage elements and the layout.  Modelled from the spec:
two tensors are the same storage iff they share the storage object, here
represented by `storageId`. -/
structure LTensor where
  tid : Nat
  storageId : Nat
  storage : List ℚ
  layout : Layout
  deriving Repr, DecidableEq

/-- All elements of a strided tensor in row-major order of its shape. -/
def stridedRead (t : LTensor) : List ℚ :=
  (enumIndices t.layout.shape).map (fun i => t.storage.getD (stridedPos t.layout i) 0)

/-- A fresh 1-D contiguous tensor over the given elements. -/
def fromVec1 (d : List ℚ) : LTensor :=
  ⟨0, 0, d, ⟨[d.length], rowMajorStrides [d.length], 0⟩⟩

/-- Modelled from the spec: `reshape` keeps the storage as a view when the
layout is contiguous; on a non-contiguous input the engine materializes the
elements into a fresh dense buffer instead of failing (spec §8 scenario 2,
and the §9 note that the existing source does not enforce the §4.A
contiguity contract).  The element count must be preserved. -/
def reshapeL (t : LTensor) (s : List Nat) : Option LTensor :=
  if prodl s = prodl t.layout.shape then
    if t.layout.isContiguous then
      some { t with layout := ⟨s, rowMajorStrides s, 0⟩ }
    else
      some ⟨t.tid, t.storageId + 1, stridedRead t, ⟨s, rowMajorStrides s, 0⟩⟩
  else none

/-- The spec §4.A reshape contract taken verbatim, for comparison: permitted
iff the storage is contiguous w.r.t. the current layout and the element count
is preserved; otherwise the caller must materialize with `contiguous()`. -/
def reshapeChecked (t : LTensor) (s : List Nat) : Option LTensor :=
  if t.layout.isContiguous ∧ prodl s = prodl t.layout.shape then
    some { t with layout := ⟨s, rowMajorStrides s, 0⟩ }
  else none

/-- Modelled from the spec: `transpose(d1, d2)` swaps the corresponding shape
and stride entries. -/
def transposeL (t : LTensor) (d1 d2 : Nat) : Option LTensor :=
  if d1 < t.layout.shape.length ∧ d2 < t.layout.shape.length then
    some { t with layout :=
      ⟨swapIdx t.layout.shape d1 d2, swapIdx t.layout.strides d1 d2, t.layout.offset⟩ }
  else none

/-- `t()`: transpose of the two innermost dimensions. -/
def tL (t : LTensor) : Option LTensor :=
  if 2 ≤ t.layout.shape.length then
    transposeL t (t.layout.shape.length - 2) (t.layout.shape.length - 1)
  else none

/-- `to_vec1` of a rank-1 tensor: its elements read through the layout. -/
def toVec1 (t : LTensor) : Option (List ℚ) :=
  if t.layout.shape.length = 1 then some (stridedRead t) else none

/-! ### `Var::set` (`variable.rs`) -/

/-- The error cases `Var::set` can surface. -/
inductive SetErr where
  | cannotSetVar (msg : String)
  | shapeMismatchBinaryOp (lhs rhs : List Nat) (op : String)
  | copyErr
  deriving Repr, DecidableEq

/-- Overwrite `dst[off + k]` with `vals[k]` for each `k`, one element at a
time (positions outside `dst` are dropped by `List.set`, mirroring that the
copy never grows the destination buffer). -/
def writeFrom (dst : List ℚ) (off : Nat) : List ℚ → List ℚ
  | [] => dst
  | q :: rest => writeFrom (dst.set off q) (off + 1) rest

/-- `Var::set` from `variable.rs`: reject aliased storage, then a
non-contiguous destination layout, then a shape mismatch, and finally copy
the source elementwise (strided source to contiguous destination) into the
existing storage.  The destination bound check models the backend copy's
requirement that the variable's storage covers its layout. -/
def varSet (v : LTensor) (src : LTensor) : Except SetErr LTensor :=
  if v.storageId = src.storageId then
    .error (.cannotSetVar "cannot set a variable to a tensor that is derived from its value")
  else if ¬ v.layout.isContiguous then
    .error (.cannotSetVar "cannot set a non-contiguous variable")
  else if v.layout.shape ≠ src.layout.shape then
    .error (.shapeMismatchBinaryOp v.layout.shape src.layout.shape "set")
  else if v.layout.offset + prodl src.layout.shape ≤ v.storage.length then
    .ok { v with storage := writeFrom v.storage v.layout.offset (stridedRead src) }
  else .error .copyErr

/-- What claim C7 asserts of `Var::set`, as a predicate over the variable and
the source: the three failure modes in their checking order, and on success
an elementwise overwrite of the existing storage (source read through its
strided layout) that preserves the tensor id, the storage identity, the
layout and the storage length, leaving positions outside the written range
untouched. -/
def c7Spec (v src : LTensor) : Prop :=
  (v.storageId = src.storageId → varSet v src = .error (.cannotSetVar
    "cannot set a variable to a tensor that is derived from its value")) ∧
  (v.storageId ≠ src.storageId → ¬ v.layout.isContiguous →
    varSet v src = .error (.cannotSetVar "cannot set a non-contiguous variable")) ∧
  (v.storageId ≠ src.storageId → v.layout.isContiguous →
    v.layout.shape ≠ src.layout.shape →
    varSet v src = .error (.shapeMismatchBinaryOp v.layout.shape src.layout.shape "set")) ∧
  (v.storageId ≠ src.storageId → v.layout.isContiguous →
    v.layout.shape = src.layout.shape →
    ∃ v2, varSet v src = .ok v2 ∧ v2.tid = v.tid ∧ v2.storageId = v.storageId ∧
      v2.layout = v.layout ∧ v2.storage.length = v.storage.length ∧
      (∀ k, k < prodl src.layout.shape →
        v2.storage.getD (v.layout.offset + k) 0 = (stridedRead src).getD k 0) ∧
      (∀ p, p < v.layout.offset → v2.storage.getD p 0 = v.storage.getD p 0) ∧
      (∀ p, v.layout.offset + prodl src.layout.shape ≤ p →
        v2.storage.getD p 0 = v.storage.getD p 0))

/-! ### The quantized-matmul provider (`quantized/mod.rs`) -/

/-- `DType` from `dtype.rs`. -/
inductive DType where
  | u8 | u32 | bf16 | f16 | f32 | f64
  deriving Repr, DecidableEq

/-- A CPU storage buffer: its dtype tag and its elements (elements are
modelled as rationals; the settled claims depend on the dtype tags, not on
float bit patterns). -/
structure CpuStorage where
  dtype : DType
  data : List ℚ
  deriving Repr, DecidableEq

/-- `CpuStorage::as_slice::<f32>`: succeeds only on an `F32` buffer. -/
def asSliceF32 (s : CpuStorage) : Option (List ℚ) :=
  if s.dtype = .f32 then some s.data else none

/-- Modelled from the spec: the stored quantized weight — its shape and its
dequantized elements in row-major order. -/
structure QTensorM where
  shape : List Nat
  data : List ℚ
  deriving Repr, DecidableEq

/-- `Shape::dims2`: the two dims of a rank-2 shape. -/
def dims2 (s : List Nat) : Option (Nat × Nat) :=
  match s with
  | [k, n] => some (k, n)
  | _ => none

/-- Error type of the provider forward (`panicSlice` models the slice-range
panic on a layout addressing past the storage). -/
inductive QErr where
  | msg (s : String)
  | panicSlice
  deriving Repr, DecidableEq

/-- Modelled from the spec: `matmul_t (m, k, n)` — the `(m, k)` float input
against the stored `(K, N)` weight, producing `m·n` floats. -/
def matmulT (m k n : Nat) (lhs w : List ℚ) : List ℚ :=
  (List.range (m * n)).map (fun p =>
    let i := p / n
    let j := p % n
    (List.range k).foldl (fun acc t => acc + lhs.getD (i * k + t) 0 * w.getD (t * n + j) 0) 0)

/-- `QMatMul::cpu_fwd` from `quantized/mod.rs`: reject a non-contiguous
layout, read the weight dims `(k, n)`, reject rank below 2, reject a last
input dim different from `k`, require `F32` storage, slice the input at the
layout's offset, and produce an `F32` buffer of the input shape with its last
dim replaced by `n`. -/
def qmatmulCpuFwd (q : QTensorM) (storage : CpuStorage) (layout : Layout) :
    Except QErr (CpuStorage × List Nat) :=
  if ¬ layout.isContiguous then .error (.msg "input tensor is not contiguous")
  else
    match dims2 q.shape with
    | none => .error (.msg "shape mismatch in dims2")
    | some (k, n) =>
      if layout.shape.length < 2 then .error (.msg "input tensor has only one dimension")
      else if layout.shape.getLastD 0 ≠ k then .error (.msg "input tensor incompatible")
      else
        let dstShape := layout.shape.dropLast ++ [n]
        match asSliceF32 storage with
        | none => .error (.msg "unexpected dtype")
        | some data =>
          if layout.offset + prodl layout.shape ≤ data.length then
            let sl := (data.drop layout.offset).take (prodl layout.shape)
            .ok (⟨.f32, matmulT (prodl dstShape / n) k n sl q.data⟩, dstShape)
          else .error .panicSlice

/-- What claim C8 asserts of the provider forward, given a stored weight of
shape `(k, n)`: success implies the input storage is `F32`, the layout is
contiguous, the rank is at least 2 and the last dim equals `k`, and the
output is `F32` of the input shape with its last dim replaced by `n`;
violating any of those conditions yields an error. -/
def c8Spec (q : QTensorM) (storage : CpuStorage) (layout : Layout) (k n : Nat) : Prop :=
  (∀ out sh, qmatmulCpuFwd q storage layout = .ok (out, sh) →
    storage.dtype = .f32 ∧ layout.isContiguous = true ∧ 2 ≤ layout.shape.length ∧
    layout.shape.getLastD 0 = k ∧ sh = layout.shape.dropLast ++ [n] ∧
    out.dtype = .f32) ∧
  ((storage.dtype ≠ .f32 ∨ layout.isContiguous = false ∨ layout.shape.length < 2 ∨
      layout.shape.getLastD 0 ≠ k) →
    ∃ e, qmatmulCpuFwd q storage layout = .error e)

/-! ### The scalar unary registry (`op.rs`) -/

/-- Outcome of a scalar kernel function: a value, or a panic (the `todo!`
macro unwinds with a message). -/
inductive ScalarRes where
  | val (v : Nat)
  | panicMsg (msg : String)
  deriving Repr, DecidableEq

/-- The `u8` scalar functions of the unary ops in `op.rs`: every op generated
by the `unary_op!` macro (Exp, Log, Sin, Cos, Abs, Neg, Recip, Sqr, Sqrt)
expands `fn u8` to `todo!("no unary function for u8")`; only the hand-written
`Gelu` and `Relu` impls provide real `u8` functions. -/
def unaryU8 : UnaryOpK → Nat → ScalarRes
  | .gelu, _ => .val 0
  | .relu, v => .val v
  | _, _ => .panicMsg "no unary function for u8"

/-- The `u32` scalar functions of the unary ops in `op.rs` (same macro). -/
def unaryU32 : UnaryOpK → Nat → ScalarRes
  | .gelu, _ => .val 0
  | .relu, v => .val v
  | _, _ => .panicMsg "no unary function for u32"

/-- Modelled from the spec (§4.B): the unary dispatch applies the per-dtype
scalar function to each element of a `U8` buffer; a panicking scalar function
aborts the kernel by unwinding. -/
def unaryMapU8 (op : UnaryOpK) (data : List Nat) : Except String (List Nat) :=
  data.mapM (fun v =>
    match unaryU8 op v with
    | .val w => Except.ok w
    | .panicMsg m => Except.error m)

/-! ### `par_range` (`cpu/kernels.rs`) -/

/-- `(t..up).step_by(n)`: the arithmetic progression `t, t+n, …` strictly
below `up`. -/
def stepRangeList (t up n : Nat) : List Nat :=
  (List.range ((up - t + n - 1) / n)).map (fun k => t + k * n)

/-- The sequence of indices `par_range(lo, up, n_threads, f)` applies `f` to:
the single-thread branch walks `lo..up`; the threaded branch hands thread `t`
the indices `t, t+n_threads, …` below `up` — starting from the thread index,
not from `lo`. -/
def parRangeIndices (lo up nThreads : Nat) : List Nat :=
  if nThreads = 1 then List.range' lo (up - lo)
  else (List.range nThreads).flatMap (fun t => stepRangeList t up nThreads)

/-! ### Auxiliary predicates over the DAG and the reverse pass -/

/-- The claim's literal ancestor condition for C3: following the op inputs
(all of them — no affine pruning), not descending below variables, some leaf
is a variable.  Same fuel discipline as the walker. -/
def varAncestorF (g : Graph) : Nat → Nat → Bool
  | 0, _ => false
  | fuel + 1, i =>
    match nodeAt g i with
    | none => false
    | some node =>
      if node.isVar then true
      else
        match node.op with
        | none => false
        | some o => (opInputs o).any (fun j => decide (j < i) && varAncestorF g fuel j)

/-- Whether some leaf ancestor through the op inputs is a variable. -/
def varAncestor (g : Graph) (i : Nat) : Bool :=
  varAncestorF g (i + 1) i

/-- Whether the tensor with a given id is a variable. -/
def isVarId (g : Graph) (i : Nat) : Bool :=
  match nodeAt g i with
  | some node => node.isVar
  | none => false

/-- The `BackwardNotSupported` name a tape entry produces, if any: exactly
the seven unsupported built-in ops of `backprop.rs`. -/
def bnsOf : OpK → Option String
  | .conv1d _ _ _ _ => some "conv1d"
  | .conv2d _ _ _ _ => some "conv2d"
  | .avgPool2d _ _ _ => some "avg-pool2d"
  | .maxPool2d _ _ _ => some "max-pool2d"
  | .upsampleNearest2d _ => some "upsample-nearest2d"
  | .unary _ .gelu => some "gelu"
  | .elu _ _ => some "elu"
  | _ => none

/-- Whether a tape entry is one of the built-in ops (not a user custom op). -/
def notCustom : OpK → Bool
  | .customOp1 _ _ => false
  | .customOp2 _ _ _ => false
  | .customOp3 _ _ _ _ => false
  | _ => true

/-- A graph without user custom ops. -/
def noCustomb (g : Graph) : Bool :=
  g.all (fun node =>
    match node.op with
    | none => true
    | some o => notCustom o)

/-- The only node having `x` among its op inputs is `a` (bounded check over
the graph, used as a decidable hypothesis). -/
def onlyConsumerb (g : Graph) (x a : Nat) : Bool :=
  (List.range (List.length g)).all (fun j =>
    match nodeAt g j with
    | none => true
    | some node => decide (x ∈ opInputsN node → j = a))

/-- Invariant of the walker state: the pushed list holds exactly the ids
memoized as tracking, memoized flags agree with the denotational `tracks`,
every memoized node has memoized (guarded) inputs, the list has no
duplicates, and every pushed node's tracked inputs were pushed before it. -/
structure WInv (g : Graph) (seen : List (Nat × Bool)) (nodes : List Nat) : Prop where
  mem_iff : ∀ j, j ∈ nodes ↔ seenFind seen j = some true
  seen_tracks : ∀ j b, seenFind seen j = some b → b = tracks g j
  closed : ∀ j b, seenFind seen j = some b → ∀ k, k ∈ walkInputsOfId g j → k < j →
    seenFind seen k ≠ none
  nodup : nodes.Nodup
  topo : ∀ l₁ m l₂, nodes = l₁ ++ m :: l₂ → ∀ k, k ∈ walkInputsOfId g m → k < m →
    tracks g k = true → k ∈ l₁

/-- Postcondition of one `walk` call. -/
def WalkOut (g : Graph) (i : Nat) (seen : List (Nat × Bool)) (nodes : List Nat)
    (r : Bool × List (Nat × Bool) × List Nat) : Prop :=
  WInv g r.2.1 r.2.2 ∧ r.1 = tracks g i ∧ (∃ b, seenFind r.2.1 i = some b) ∧
  (∀ j b, seenFind seen j = some b → seenFind r.2.1 j = some b) ∧
  (∃ d, r.2.2 = nodes ++ d) ∧
  (∀ j, seenFind seen j = none → (∃ b, seenFind r.2.1 j = some b) → Reaches g i j) ∧
  (seenFind seen i = none → r.1 = true → ∃ pre, r.2.2 = nodes ++ pre ++ [i])

/-- Postcondition of the walker's fold over a node's input list. -/
def FoldOut (g : Graph) (i : Nat) (js : List Nat) (b0 : Bool)
    (seen : List (Nat × Bool)) (nodes : List Nat)
    (r : Bool × List (Nat × Bool) × List Nat) : Prop :=
  WInv g r.2.1 r.2.2 ∧
  r.1 = (b0 || js.any (fun j => decide (j < i) && tracks g j)) ∧
  (∀ j, j ∈ js → j < i → ∃ b, seenFind r.2.1 j = some b) ∧
  (∀ j b, seenFind seen j = some b → seenFind r.2.1 j = some b) ∧
  (∃ d, r.2.2 = nodes ++ d) ∧
  (∀ j, seenFind seen j = none → (∃ b, seenFind r.2.1 j = some b) →
    ∃ j0, j0 ∈ js ∧ j0 < i ∧ Reaches g j0 j)

/-- A store reachable from another by insertions at ids drawn from a target
set — the shape of every mutation a reverse step performs after removing the
node's own entry. -/
inductive InsChain (targets : List Nat) : Store → Store → Prop where
  | refl (s : Store) : InsChain targets s s
  | step {s s2 : Store} {j : Nat} (v : Value) : j ∈ targets → InsChain targets s s2 →
      InsChain targets s (storeInsert s2 j v)

/-- Every successful outcome of a store computation extends its start store
by insertions at ids from the target list — the mutation discipline every
reverse-step arm obeys over its op inputs. -/
def chainP (t : List Nat) (st : Store) (e : Except BErr Store) : Prop :=
  ∀ st2, e = .ok st2 → InsChain t st st2

/-- The claim's elementwise sign: 1 for positive, 0 at zero, −1 for
negative arguments. -/
def ratSign (q : ℚ) : ℚ := if 0 < q then 1 else if q < 0 then -1 else 0

/-- What the amended claim C1 asserts of `backward` on a root: (1) the pass
starts from `grads[root] = ones_like(root)` and walks the sorted nodes; (2)
on success no processed non-variable node keeps an entry; (3) an entry a
variable acquires at any point of the pass survives to the returned map. -/
def c1Spec (g : Graph) (tr : TransOps) (root : Nat) : Prop :=
  (∀ n0, nodeAt g root = some n0 →
    backward g tr root =
      processLoop g tr (sortedNodes g root)
        (storeInsert [] root (onesV n0.value.shape))) ∧
  (∀ gs, backward g tr root = .ok gs →
    ∀ n, n ∈ sortedNodes g root → isVarId g n = false → storeFind gs n = none) ∧
  (∀ gs n0, backward g tr root = .ok gs → nodeAt g root = some n0 →
    ∀ v, isVarId g v = true →
    ∀ l₁ l₂ st₁, sortedNodes g root = l₁ ++ l₂ →
      processLoop g tr l₁ (storeInsert [] root (onesV n0.value.shape)) = .ok st₁ →
      storeFind st₁ v ≠ none → storeFind gs v ≠ none)

/-- What the amended claim C2 asserts of `backward` without custom ops: the
pass returns `BackwardNotSupported` exactly when the reverse loop reaches a
processed non-variable node that still holds an accumulated gradient and
whose op is one of the seven unsupported built-ins (named by `bnsOf`); and a
`Cmp`/`ArgMin`/`ArgMax` node holding a gradient is processed successfully,
contributing nothing (its own entry is simply consumed). -/
def c2Spec (g : Graph) (tr : TransOps) (root : Nat) (rootNode : Node) : Prop :=
  (∀ s, backward g tr root = .error (.bns s) ↔
    ∃ l₁ n l₂ st₁ node o, sortedNodes g root = l₁ ++ n :: l₂ ∧
      processLoop g tr l₁ (storeInsert [] root (onesV rootNode.value.shape)) = .ok st₁ ∧
      nodeAt g n = some node ∧ node.isVar = false ∧
      (∃ gv, storeFind st₁ n = some gv) ∧ node.op = some o ∧ bnsOf o = some s) ∧
  (∀ st n node gv, nodeAt g n = some node → node.isVar = false →
    ((∃ a k, node.op = some (.cmp a k)) ∨
      (∃ a d, node.op = some (.reduce a .argMin d)) ∨
      (∃ a d, node.op = some (.reduce a .argMax d))) →
    storeFind st n = some gv →
    processOne g tr st n = .ok (storeErase st n))

/-- What the amended claim C3 asserts of `sorted_nodes`: membership is
reachability along walker edges (with variables as leaves and the
`Affine mul == 0` pruning) together with a tracked variable below; ids are
unique; the root comes first; and every node precedes its walker inputs. -/
def c3Spec (g : Graph) (root : Nat) : Prop :=
  (∀ n, n ∈ sortedNodes g root ↔ (Reaches g root n ∧ tracks g n = true)) ∧
  (sortedNodes g root).Nodup ∧
  (sortedNodes g root ≠ [] → (sortedNodes g root).head? = some root) ∧
  (∀ l₁ m l₂, sortedNodes g root = l₁ ++ m :: l₂ → ∀ k, k ∈ walkInputsOfId g m →
    k ∈ sortedNodes g root → k ∈ l₂)

/-- What claim C5 asserts of `Affine`: (1) the walker prunes the argument
subtree of an `Affine` node with `mul = 0` (marking the node as not
tracking); (2) when the affine node is the only consumer of `x` and `x` is
not the root, the returned `GradStore` has no entry for `x` and `x` is not
among the sorted nodes; (3) more generally no node the pruned walk cannot
reach from the root (other than the root itself) ever receives a gradient
entry — which covers every node reachable only through the pruned edge; and
(4) a reverse step over an `Affine` node accumulates `g · mul` elementwise
into its argument's gradient. -/
def c5Spec (g : Graph) (tr : TransOps) (root a x : Nat) : Prop :=
  (∀ node arg add fuel seen nodes, nodeAt g a = some node → node.isVar = false →
    node.op = some (.affine arg 0 add) → seenFind seen a = none →
    walkF g (fuel + 1) a seen nodes = (false, seenInsert seen a false, nodes)) ∧
  (∀ gs, backward g tr root = .ok gs → storeFind gs x = none ∧
    x ∉ sortedNodes g root) ∧
  (∀ gs y, backward g tr root = .ok gs → ¬ Reaches g root y → y ≠ root →
    storeFind gs y = none ∧ y ∉ sortedNodes g root) ∧
  (∀ st i node xnode mul add xv gv, nodeAt g i = some node → node.isVar = false →
    node.op = some (.affine x mul add) →
    nodeAt g x = some xnode → xnode.value = xv →
    storeFind st i = some gv → storeFind st x = none → x ≠ i →
    gv.shape = xv.shape →
    ∃ st2 c, processOne g tr st i = .ok st2 ∧ storeFind st2 x = some c ∧
      c.shape = xv.shape ∧ c.data.length = prodl xv.shape ∧
      ∀ nn, nn < prodl xv.shape →
        c.data.getD nn 0 = gv.data.getD nn 0 * mul)

/-- What the amended claim C4 asserts of one reverse step over a `Unary Abs`
node `i` with input `x` holding value `xv`, processed with incoming gradient
`gv`: the step succeeds and the contribution written for `x` is
`gv · (1 if xv ≥ 0 else −1)` elementwise. -/
def c4Spec (g : Graph) (tr : TransOps) (st : Store) (i x : Nat) (xv gv : Value) : Prop :=
  ∃ st2 c, processOne g tr st i = .ok st2 ∧ storeFind st2 x = some c ∧
    c.shape = xv.shape ∧ c.data.length = prodl xv.shape ∧
    ∀ nn, nn < prodl xv.shape →
      c.data.getD nn 0 = gv.data.getD nn 0 * (if 0 ≤ xv.data.getD nn 0 then 1 else -1)

/-! ### Concrete fixtures used by closed statements and witnesses -/

/-- A variable node. -/
def vnode (sh : List Nat) (d : List ℚ) : Node := ⟨true, ⟨sh, d⟩, none⟩

/-- A non-variable node produced by an op. -/
def onode (sh : List Nat) (d : List ℚ) (o : OpK) : Node := ⟨false, ⟨sh, d⟩, some o⟩

/-- A constant leaf node (no tape entry, not a variable). -/
def cnode (sh : List Nat) (d : List ℚ) : Node := ⟨false, ⟨sh, d⟩, none⟩

/-- `abs` of a variable holding the single element 0. -/
def gC4 : Graph := [vnode [1] [0], onode [1] [0] (.unary 0 .abs)]

/-- `abs` of a variable holding the single element 2. -/
def gC4w : Graph := [vnode [1] [2], onode [1] [2] (.unary 0 .abs)]

/-- A `Cmp` over a single variable. -/
def gC1 : Graph := [vnode [1] [5], onode [1] [0] (.cmp 0 .eq)]

/-- `x + x` over one variable. -/
def gC1w : Graph := [vnode [2] [1, 2], onode [2] [2, 4] (.binary 0 0 .add)]

/-- A `Cmp` over a `conv1d` of a variable and a constant kernel. -/
def gC2 : Graph := [vnode [1] [1], cnode [1] [1],
  onode [1] [1] (.conv1d 0 1 0 1), onode [1] [1] (.cmp 2 .eq)]

/-- `gelu` of a variable. -/
def gC2w : Graph := [vnode [1] [1], onode [1] [1] (.unary 0 .gelu)]

/-- An `Affine{mul = 0}` over a variable. -/
def gC3 : Graph := [vnode [1] [3], onode [1] [7] (.affine 0 0 7)]

/-- `sqr` of a variable. -/
def gC3w : Graph := [vnode [1] [3], onode [1] [9] (.unary 0 .sqr)]

/-! ## Theorems -/

/-! ### Index arithmetic lemmas -/

theorem toFlat_toMulti (s : List Nat) (n : Nat) (h : n < prodl s) :
    toFlat s (toMulti s n) = n := by
  induction s generalizing n with
  | nil =>
    simp [prodl] at h
    simp [toMulti, toFlat, h]
  | cons d ds ih =>
    simp only [toMulti, toFlat]
    rcases Nat.eq_zero_or_pos (prodl ds) with h0 | hpos
    · simp [prodl, h0] at h
    · rw [ih _ (Nat.mod_lt _ hpos)]
      exact Nat.div_add_mod' n (prodl ds)

theorem toMulti_length (s : List Nat) (n : Nat) : (toMulti s n).length = s.length := by
  induction s generalizing n with
  | nil => rfl
  | cons d ds ih => simp [toMulti, ih]

/-- Every digit of `toMulti` is below the corresponding extent (for in-range
flat indices). -/
theorem toMulti_lt (s : List Nat) (n : Nat) (h : n < prodl s) :
    ∀ k, (toMulti s n).getD k 0 < s.getD k 1 := by
  induction s generalizing n with
  | nil => intro k; simp [toMulti]
  | cons d ds ih =>
    intro k
    rcases Nat.eq_zero_or_pos (prodl ds) with h0 | hpos
    · simp [prodl, h0] at h
    · cases k with
      | zero =>
        have hd : n / prodl ds < d :=
          Nat.div_lt_of_lt_mul (by rw [Nat.mul_comm]; simpa [prodl] using h)
        simpa [toMulti] using hd
      | succ k =>
        simpa [toMulti] using ih (n % prodl ds) (Nat.mod_lt _ hpos) k

theorem broadcastDims_self (s : List Nat) : broadcastDims s s = some s := by
  induction s with
  | nil => rfl
  | cons d ds ih => simp [broadcastDims, ih]

theorem broadcastShape_self (s : List Nat) : broadcastShape s s = some s := by
  simp [broadcastShape, broadcastDims_self]

/-! ### Pointwise lemmas for same-shape value operations -/

theorem getD_in_map (f : ℚ → ℚ) (l : List ℚ) (n : Nat) (h : n < l.length) :
    (l.map f).getD n 0 = f (l.getD n 0) := by
  rw [List.getD_eq_getElem _ _ (by simpa using h), List.getD_eq_getElem _ _ h,
    List.getElem_map]

theorem getD_map_range (F : Nat → ℚ) (m n : Nat) (h : n < m) :
    ((List.range m).map F).getD n 0 = F n := by
  rw [List.getD_eq_getElem _ _ (by simpa using h), List.getElem_map, List.getElem_range]

theorem getD_replicate (c : ℚ) (m n : Nat) (h : n < m) :
    (List.replicate m c).getD n 0 = c := by
  rw [List.getD_eq_getElem _ _ (by simpa using h), List.getElem_replicate]

theorem enumIndices_length (s : List Nat) : (enumIndices s).length = prodl s := by
  simp [enumIndices]

theorem coordsNorm (s : List Nat) : ∀ (I : List Nat), I.length = s.length →
    (∀ k, I.getD k 0 < s.getD k 1) →
    (List.zip s I).map (fun p => if p.1 = 1 then 0 else p.2) = I := by
  induction s with
  | nil => intro I hlen _; cases I <;> simp_all
  | cons d ds ih =>
    intro I hlen hlt
    cases I with
    | nil => simp at hlen
    | cons i is =>
      simp only [List.zip_cons_cons, List.map_cons]
      have h0 := hlt 0
      simp only [List.getD_cons_zero] at h0
      have htail : ∀ k, is.getD k 0 < ds.getD k 1 := fun k => by
        have := hlt (k + 1)
        simpa using this
      rw [ih is (by simpa using hlen) htail]
      by_cases hd : d = 1
      · subst hd
        have : i = 0 := by omega
        simp [this]
      · simp [hd]

theorem broadcastRead_self (v : Value) (s : List Nat) (hv : v.shape = s)
    (n : Nat) (hn : n < prodl s) :
    broadcastRead v s (toMulti s n) = v.data.getD n 0 := by
  simp only [broadcastRead, Value.getAt, hv, Nat.sub_self, List.drop_zero]
  rw [coordsNorm s (toMulti s n) (toMulti_length s n) (toMulti_lt s n hn),
    toFlat_toMulti s n hn]

theorem map2Broadcast_same (f : ℚ → ℚ → ℚ) (a b : Value) (s : List Nat)
    (ha : a.shape = s) (hb : b.shape = s) :
    ∃ c, map2Broadcast f a b = some c ∧ c.shape = s ∧ c.data.length = prodl s ∧
      ∀ nn, nn < prodl s →
        c.data.getD nn 0 = f (a.data.getD nn 0) (b.data.getD nn 0) := by
  unfold map2Broadcast
  rw [ha, hb, broadcastShape_self]
  refine ⟨_, rfl, rfl, by simp [enumIndices], ?_⟩
  intro nn h
  unfold enumIndices
  rw [List.map_map, getD_map_range _ _ _ h]
  simp only [Function.comp_apply]
  rw [broadcastRead_self a s ha nn h, broadcastRead_self b s hb nn h]

theorem whereCondV_same (pred t f : Value) (s : List Nat)
    (hp : pred.shape = s) (ht : t.shape = s) (hf : f.shape = s) :
    ∃ c, whereCondV pred t f = some c ∧ c.shape = s ∧ c.data.length = prodl s ∧
      ∀ nn, nn < prodl s →
        c.data.getD nn 0 = if pred.data.getD nn 0 = 0 then f.data.getD nn 0
          else t.data.getD nn 0 := by
  unfold whereCondV
  rw [hp, ht, hf]
  simp only [broadcastShape_self]
  refine ⟨_, rfl, rfl, by simp [enumIndices], ?_⟩
  intro nn h
  unfold enumIndices
  rw [List.map_map, getD_map_range _ _ _ h]
  simp only [Function.comp_apply]
  rw [broadcastRead_self pred s hp nn h, broadcastRead_self t s ht nn h,
    broadcastRead_self f s hf nn h]

/-! ### Store lemmas -/

theorem storeFind_erase_ne (st : Store) (i j : Nat) (h : i ≠ j) :
    storeFind (storeErase st i) j = storeFind st j := by
  induction st with
  | nil => rfl
  | cons p rest ih =>
    obtain ⟨k, v⟩ := p
    rw [storeErase, List.filter_cons]
    by_cases hk : k = i
    · rw [if_neg (by simp [hk])]
      simp only [storeFind, if_neg (show ¬ k = j by omega)]
      exact ih
    · rw [if_pos (by simp [hk])]
      simp only [storeFind]
      by_cases hj : k = j
      · rw [if_pos hj, if_pos hj]
      · rw [if_neg hj, if_neg hj]
        exact ih

theorem storeFind_erase_self (st : Store) (i : Nat) :
    storeFind (storeErase st i) i = none := by
  induction st with
  | nil => rfl
  | cons p rest ih =>
    obtain ⟨k, v⟩ := p
    rw [storeErase, List.filter_cons]
    by_cases hk : k = i
    · rw [if_neg (by simp [hk])]
      exact ih
    · rw [if_pos (by simp [hk])]
      simp only [storeFind, if_neg hk]
      exact ih

theorem storeFind_insert_self (st : Store) (i : Nat) (v : Value) :
    storeFind (storeInsert st i v) i = some v := by
  simp [storeInsert, storeFind]

theorem storeFind_insert_ne (st : Store) (i j : Nat) (v : Value) (h : i ≠ j) :
    storeFind (storeInsert st i v) j = storeFind st j := by
  simp only [storeInsert, storeFind, if_neg (by omega : ¬ i = j)]
  exact storeFind_erase_ne st i j h

theorem storeRemove_eq (st : Store) (i : Nat) (v : Value)
    (h : storeFind st i = some v) :
    storeRemove st i = some (v, storeErase st i) := by
  unfold storeRemove
  rw [h]

theorem ebind_ok {α β : Type} (a : α) (f : α → Except BErr β) :
    (Except.ok a >>= f : Except BErr β) = f a := rfl

/-! ### Walker infrastructure: seen maps, well-formedness, reachability -/

theorem seenFind_insert_self (s : List (Nat × Bool)) (i : Nat) (b : Bool) :
    seenFind (seenInsert s i b) i = some b := by
  simp [seenInsert, seenFind]

theorem seenFind_insert_ne (s : List (Nat × Bool)) (i j : Nat) (b : Bool) (h : i ≠ j) :
    seenFind (seenInsert s i b) j = seenFind s j := by
  simp [seenInsert, seenFind, h]

theorem any_congr_mem {l : List Nat} {f h : Nat → Bool}
    (he : ∀ a ∈ l, f a = h a) : l.any f = l.any h := by
  induction l with
  | nil => rfl
  | cons a rest ih =>
    simp only [List.any_cons]
    rw [he a (by simp), ih (fun x hx => he x (by simp [hx]))]

theorem walkInputs_subset (o : OpK) : ∀ j, j ∈ walkInputs o → j ∈ opInputs o := by
  intro j hj
  cases o <;> simp [walkInputs, opInputs] at hj ⊢ <;> try exact hj
  case affine a mul add =>
    by_cases hm : mul = 0
    · simp [hm] at hj
    · simp [hm] at hj
      exact hj

theorem nodeAt_lt_length {g : Graph} {i : Nat} {node : Node}
    (hn : nodeAt g i = some node) : i < List.length g := by
  unfold nodeAt at hn
  exact (List.get?_eq_some.mp hn).1

theorem wf_inputs {g : Graph} (hwf : wfb g = true) {i : Nat} {node : Node}
    (hn : nodeAt g i = some node) {j : Nat} (hj : j ∈ opInputsN node) : j < i := by
  have hi : i < List.length g := nodeAt_lt_length hn
  unfold wfb at hwf
  rw [List.all_eq_true] at hwf
  have h2 := hwf i (by rw [List.mem_range]; exact hi)
  simp only [hn, List.all_eq_true] at h2
  simpa using h2 j hj

theorem wf_walkInputs {g : Graph} (hwf : wfb g = true) {i : Nat} {node : Node} {o : OpK}
    (hn : nodeAt g i = some node) (ho : node.op = some o) {j : Nat}
    (hj : j ∈ walkInputs o) : j < i :=
  wf_inputs hwf hn (by simp [opInputsN, ho]; exact walkInputs_subset o j hj)

theorem Reaches_le {g : Graph} (hwf : wfb g = true) {a b : Nat}
    (h : Reaches g a b) : b ≤ a := by
  induction h with
  | refl => exact Nat.le_refl _
  | step node o hn _ hop hj _ ih =>
    exact Nat.le_trans ih (Nat.le_of_lt (wf_walkInputs hwf hn hop hj))

/-- A strict reach has a final walker edge into its target. -/
theorem Reaches_last_edge {g : Graph} :
    ∀ {a b : Nat}, Reaches g a b → a ≠ b →
    ∃ j node o, nodeAt g j = some node ∧ node.isVar = false ∧ node.op = some o ∧
      b ∈ walkInputs o := by
  intro a b h
  induction h with
  | refl => intro hne; exact absurd rfl hne
  | @step i j k node o hn hv hop hj hr ih =>
    intro _
    by_cases hjk : j = k
    · subst hjk
      exact ⟨i, node, o, hn, hv, hop, hj⟩
    · exact ih hjk

/-! ### Unfolding lemmas for `tracks` -/

theorem tracksF_congr (g : Graph) : ∀ i f1 f2, i < f1 → i < f2 →
    tracksF g f1 i = tracksF g f2 i := by
  intro i
  induction i using Nat.strong_induction_on with
  | _ i ih =>
    intro f1 f2 h1 h2
    obtain ⟨g1, rfl⟩ : ∃ g1, f1 = g1 + 1 := ⟨f1 - 1, by omega⟩
    obtain ⟨g2, rfl⟩ : ∃ g2, f2 = g2 + 1 := ⟨f2 - 1, by omega⟩
    show tracksF g (g1 + 1) i = tracksF g (g2 + 1) i
    cases hn : nodeAt g i with
    | none => simp [tracksF, hn]
    | some node =>
      cases hv : node.isVar with
      | true => simp [tracksF, hn, hv]
      | false =>
        cases ho : node.op with
        | none => simp [tracksF, hn, hv, ho]
        | some o =>
          simp only [tracksF, hn, hv, ho, Bool.false_eq_true, if_false]
          refine any_congr_mem ?_
          intro j _
          by_cases hji : j < i
          · simp only [hji, decide_True, Bool.true_and]
            exact ih j hji g1 g2 (by omega) (by omega)
          · simp [hji]

theorem tracks_eq_op (g : Graph) (i : Nat) (node : Node) (o : OpK)
    (hn : nodeAt g i = some node) (hv : node.isVar = false) (ho : node.op = some o) :
    tracks g i = (walkInputs o).any (fun j => decide (j < i) && tracks g j) := by
  unfold tracks
  show tracksF g (i + 1) i = _
  simp only [tracksF, hn, hv, ho, Bool.false_eq_true, if_false]
  refine any_congr_mem ?_
  intro j _
  by_cases hji : j < i
  · simp only [hji, decide_True, Bool.true_and]
    exact tracksF_congr g j i (j + 1) hji (Nat.lt_succ_self j)
  · simp [hji]

theorem tracks_var (g : Graph) (i : Nat) (node : Node)
    (hn : nodeAt g i = some node) (hv : node.isVar = true) : tracks g i = true := by
  simp [tracks, tracksF, hn, hv]

theorem tracks_nodeNone (g : Graph) (i : Nat) (hn : nodeAt g i = none) :
    tracks g i = false := by
  simp [tracks, tracksF, hn]

theorem tracks_opNone (g : Graph) (i : Nat) (node : Node)
    (hn : nodeAt g i = some node) (hv : node.isVar = false) (ho : node.op = none) :
    tracks g i = false := by
  simp [tracks, tracksF, hn, hv, ho]

/-- Tracking propagates up along walker reachability. -/
theorem tracks_of_reach {g : Graph} (hwf : wfb g = true) :
    ∀ {a b : Nat}, Reaches g a b → tracks g b = true → tracks g a = true := by
  intro a b h
  induction h with
  | refl => exact fun hb => hb
  | @step i j k node o hn hv hop hj _ ih =>
    intro hb
    rw [tracks_eq_op g i node o hn hv hop, List.any_eq_true]
    exact ⟨j, hj, by
      have hji := wf_walkInputs hwf hn hop hj
      simp [hji, ih hb]⟩

theorem append_singleton_split {α : Type} :
    ∀ (l₁ xs : List α) (a m : α) (l₂ : List α), xs ++ [a] = l₁ ++ m :: l₂ →
    (∃ l₂x, xs = l₁ ++ m :: l₂x ∧ l₂ = l₂x ++ [a]) ∨ (l₁ = xs ∧ m = a ∧ l₂ = []) := by
  intro l₁
  induction l₁ with
  | nil =>
    intro xs a m l₂ h
    cases xs with
    | nil =>
      right
      have h2 : a = m ∧ [] = l₂ := List.cons_eq_cons.mp (by simpa using h)
      exact ⟨rfl, h2.1.symm, h2.2.symm⟩
    | cons x xt =>
      left
      have h2 : x = m ∧ xt ++ [a] = l₂ := List.cons_eq_cons.mp (by simpa using h)
      exact ⟨xt, by simp [h2.1], h2.2.symm⟩
  | cons b bt ih =>
    intro xs a m l₂ h
    cases xs with
    | nil =>
      exfalso
      have hlen := congrArg List.length h
      simp only [List.length_append, List.length_cons, List.length_nil] at hlen
      omega
    | cons x xt =>
      simp only [List.cons_append] at h
      obtain ⟨h1, h2⟩ := List.cons_eq_cons.mp h
      rcases ih xt a m l₂ h2 with ⟨l₂x, hh1, hh2⟩ | ⟨hh1, hh2, hh3⟩
      · exact Or.inl ⟨l₂x, by rw [List.cons_append, h1, hh1], hh2⟩
      · exact Or.inr ⟨by rw [h1, hh1], hh2, hh3⟩

/-! ### The walker specification -/

theorem reach_marked {g : Graph} (hwf : wfb g = true) {seen : List (Nat × Bool)}
    {nodes : List Nat} (hinv : WInv g seen nodes) :
    ∀ {i k : Nat}, Reaches g i k → (∃ b, seenFind seen i = some b) →
    ∃ b, seenFind seen k = some b := by
  intro i k h
  induction h with
  | refl => exact fun hb => hb
  | @step i j k node o hn hv hop hj _ ih =>
    intro ⟨b, hb⟩
    refine ih ?_
    have hedge : j ∈ walkInputsOfId g i := by
      simp [walkInputsOfId, hn, hv, hop, hj]
    have hlt : j < i := wf_walkInputs hwf hn hop hj
    have := hinv.closed i b hb j hedge hlt
    cases hfind : seenFind seen j with
    | none => exact absurd hfind this
    | some b2 => exact ⟨b2, rfl⟩

theorem walkFoldAux (g : Graph) (fuel i : Nat)
    (hIH : ∀ j, j < i → ∀ seen nodes, WInv g seen nodes →
      WalkOut g j seen nodes (walkF g fuel j seen nodes)) :
    ∀ js b0 seen nodes, WInv g seen nodes →
      FoldOut g i js b0 seen nodes
        (js.foldl (fun acc j =>
          if j < i then
            let r1 := walkF g fuel j acc.2.1 acc.2.2
            (acc.1 || r1.1, r1.2)
          else acc) (b0, seen, nodes)) := by
  intro js
  induction js with
  | nil =>
    intro b0 seen nodes hinv
    refine ⟨hinv, by simp, by simp, fun j b h => h, ⟨[], by simp⟩, ?_⟩
    rintro j hnone ⟨b, hsome⟩
    rw [List.foldl_nil] at hsome
    rw [hnone] at hsome
    cases hsome
  | cons j rest ih =>
    intro b0 seen nodes hinv
    rw [List.foldl_cons]
    by_cases hj : j < i
    · simp only [hj, if_true]
      obtain ⟨inv1, htg1, hmark1, hmono1, ⟨d1, hd1⟩, hreach1, _⟩ :=
        hIH j hj seen nodes hinv
      obtain ⟨invR, htgR, hmarkR, hmonoR, ⟨dR, hdR⟩, hreachR⟩ :=
        ih (b0 || (walkF g fuel j seen nodes).1) (walkF g fuel j seen nodes).2.1
          (walkF g fuel j seen nodes).2.2 inv1
      refine ⟨invR, ?_, ?_, ?_, ?_, ?_⟩
      · rw [htgR, htg1]
        simp [hj, Bool.or_assoc]
      · intro j2 hj2 hj2i
        rcases List.mem_cons.mp hj2 with rfl | hj2r
        · obtain ⟨b, hb⟩ := hmark1
          exact ⟨b, hmonoR j2 b hb⟩
        · exact hmarkR j2 hj2r hj2i
      · intro j2 b hb
        exact hmonoR j2 b (hmono1 j2 b hb)
      · exact ⟨d1 ++ dR, by rw [hdR, hd1, List.append_assoc]⟩
      · intro k hnone hsome
        cases hmid : seenFind (walkF g fuel j seen nodes).2.1 k with
        | some b =>
          exact ⟨j, List.mem_cons_self j rest, hj, hreach1 k hnone ⟨b, hmid⟩⟩
        | none =>
          obtain ⟨j0, hj0, hj0i, hj0r⟩ := hreachR k hmid hsome
          exact ⟨j0, List.mem_cons_of_mem j hj0, hj0i, hj0r⟩
    · simp only [hj, if_false]
      obtain ⟨invR, htgR, hmarkR, hmonoR, hdR, hreachR⟩ := ih b0 seen nodes hinv
      refine ⟨invR, ?_, ?_, hmonoR, hdR, ?_⟩
      · rw [htgR]
        simp [hj]
      · intro j2 hj2 hj2i
        rcases List.mem_cons.mp hj2 with rfl | hj2r
        · exact absurd hj2i hj
        · exact hmarkR j2 hj2r hj2i
      · intro k hnone hsome
        obtain ⟨j0, hj0, hj0i, hj0r⟩ := hreachR k hnone hsome
        exact ⟨j0, List.mem_cons_of_mem j hj0, hj0i, hj0r⟩

theorem walkF_spec (g : Graph) (hwf : wfb g = true) :
    ∀ i fuel seen nodes, i < fuel → WInv g seen nodes →
      WalkOut g i seen nodes (walkF g fuel i seen nodes) := by
  intro i
  induction i using Nat.strong_induction_on with
  | _ i ihs =>
    intro fuel seen nodes hfuel hinv
    obtain ⟨f, rfl⟩ : ∃ f, fuel = f + 1 := ⟨fuel - 1, by omega⟩
    cases hseen : seenFind seen i with
    | some tg =>
      have hres : walkF g (f + 1) i seen nodes = (tg, seen, nodes) := by
        simp [walkF, hseen]
      rw [hres]
      refine ⟨hinv, (hinv.seen_tracks i tg hseen), ⟨tg, hseen⟩, fun j b h => h,
        ⟨[], by simp⟩, ?_, ?_⟩
      · rintro j hnone ⟨b, hsome⟩
        rw [hnone] at hsome
        cases hsome
      · intro hnone
        rw [hseen] at hnone
        cases hnone
    | none =>
      cases hn : nodeAt g i with
      | none =>
        have hres : walkF g (f + 1) i seen nodes =
            (false, seenInsert seen i false, nodes) := by
          simp [walkF, hseen, hn]
        rw [hres]
        have htr : tracks g i = false := tracks_nodeNone g i hn
        refine ⟨⟨?_, ?_, ?_, hinv.nodup, hinv.topo⟩, htr.symm,
          ⟨false, seenFind_insert_self _ _ _⟩, ?_, ⟨[], by simp⟩, ?_, ?_⟩
        · intro j
          by_cases hji : i = j
          · subst hji
            rw [seenFind_insert_self]
            constructor
            · intro hmem
              rw [(hinv.mem_iff i).mp hmem] at hseen
              cases hseen
            · intro hh
              cases hh
          · rw [seenFind_insert_ne _ _ _ _ hji]
            exact hinv.mem_iff j
        · intro j b hb
          by_cases hji : i = j
          · subst hji
            rw [seenFind_insert_self] at hb
            cases hb
            exact htr.symm
          · rw [seenFind_insert_ne _ _ _ _ hji] at hb
            exact hinv.seen_tracks j b hb
        · intro j b hb k hk hklt
          by_cases hji : i = j
          · subst hji
            simp [walkInputsOfId, hn] at hk
          · rw [seenFind_insert_ne _ _ _ _ hji] at hb
            have := hinv.closed j b hb k hk hklt
            by_cases hki : i = k
            · subst hki
              rw [seenFind_insert_self]
              simp
            · rw [seenFind_insert_ne _ _ _ _ hki]
              exact this
        · intro j b hb
          have hji : i ≠ j := fun he => by rw [← he, hseen] at hb; cases hb
          rw [seenFind_insert_ne _ _ _ _ hji]
          exact hb
        · rintro j hnone ⟨b, hsome⟩
          by_cases hji : i = j
          · subst hji
            exact Reaches.refl i
          · rw [seenFind_insert_ne _ _ _ _ hji] at hsome
            rw [hnone] at hsome
            cases hsome
        · intro _ hfalse
          cases hfalse
      | some node =>
        cases hv : node.isVar with
        | true =>
          have hres : walkF g (f + 1) i seen nodes =
              (true, seenInsert seen i true, nodes ++ [i]) := by
            simp [walkF, hseen, hn, hv]
          rw [hres]
          have htr : tracks g i = true := tracks_var g i node hn hv
          have hnotmem : i ∉ nodes := fun hmem => by
            rw [(hinv.mem_iff i).mp hmem] at hseen
            cases hseen
          refine ⟨⟨?_, ?_, ?_, ?_, ?_⟩, htr.symm,
            ⟨true, seenFind_insert_self _ _ _⟩, ?_, ⟨[i], rfl⟩, ?_, fun _ _ => ⟨[], by simp⟩⟩
          · intro j
            by_cases hji : i = j
            · subst hji
              rw [seenFind_insert_self]
              simp
            · rw [seenFind_insert_ne _ _ _ _ hji]
              rw [List.mem_append]
              simp only [List.mem_singleton]
              constructor
              · rintro (hm | hm)
                · exact (hinv.mem_iff j).mp hm
                · exact absurd hm.symm hji
              · intro hs
                exact Or.inl ((hinv.mem_iff j).mpr hs)
          · intro j b hb
            by_cases hji : i = j
            · subst hji
              rw [seenFind_insert_self] at hb
              cases hb
              exact htr.symm
            · rw [seenFind_insert_ne _ _ _ _ hji] at hb
              exact hinv.seen_tracks j b hb
          · intro j b hb k hk hklt
            by_cases hji : i = j
            · subst hji
              simp [walkInputsOfId, hn, hv] at hk
            · rw [seenFind_insert_ne _ _ _ _ hji] at hb
              have := hinv.closed j b hb k hk hklt
              by_cases hki : i = k
              · subst hki
                rw [seenFind_insert_self]
                simp
              · rw [seenFind_insert_ne _ _ _ _ hki]
                exact this
          · rw [List.nodup_append]
            exact ⟨hinv.nodup, List.nodup_singleton i,
              fun a ha hb => by
                rw [List.mem_singleton] at hb
                subst hb
                exact hnotmem ha⟩
          · intro l₁ m l₂ hsplit k hk hklt hktr
            rcases append_singleton_split l₁ nodes i m l₂ hsplit with
              ⟨l₂x, hx1, _⟩ | ⟨hx1, hx2, _⟩
            · exact hinv.topo l₁ m l₂x hx1 k hk hklt hktr
            · subst hx2
              simp [walkInputsOfId, hn, hv] at hk
          · intro j b hb
            have hji : i ≠ j := fun he => by rw [← he, hseen] at hb; cases hb
            rw [seenFind_insert_ne _ _ _ _ hji]
            exact hb
          · rintro j hnone ⟨b, hsome⟩
            by_cases hji : i = j
            · subst hji
              exact Reaches.refl i
            · rw [seenFind_insert_ne _ _ _ _ hji] at hsome
              rw [hnone] at hsome
              cases hsome
        | false =>
          cases ho : node.op with
          | none =>
            have hres : walkF g (f + 1) i seen nodes =
                (false, seenInsert seen i false, nodes) := by
              simp [walkF, hseen, hn, hv, ho]
            rw [hres]
            have htr : tracks g i = false := tracks_opNone g i node hn hv ho
            refine ⟨⟨?_, ?_, ?_, hinv.nodup, hinv.topo⟩, htr.symm,
              ⟨false, seenFind_insert_self _ _ _⟩, ?_, ⟨[], by simp⟩, ?_, ?_⟩
            · intro j
              by_cases hji : i = j
              · subst hji
                rw [seenFind_insert_self]
                constructor
                · intro hmem
                  rw [(hinv.mem_iff i).mp hmem] at hseen
                  cases hseen
                · intro hh
                  cases hh
              · rw [seenFind_insert_ne _ _ _ _ hji]
                exact hinv.mem_iff j
            · intro j b hb
              by_cases hji : i = j
              · subst hji
                rw [seenFind_insert_self] at hb
                cases hb
                exact htr.symm
              · rw [seenFind_insert_ne _ _ _ _ hji] at hb
                exact hinv.seen_tracks j b hb
            · intro j b hb k hk hklt
              by_cases hji : i = j
              · subst hji
                simp [walkInputsOfId, hn, hv, ho] at hk
              · rw [seenFind_insert_ne _ _ _ _ hji] at hb
                have := hinv.closed j b hb k hk hklt
                by_cases hki : i = k
                · subst hki
                  rw [seenFind_insert_self]
                  simp
                · rw [seenFind_insert_ne _ _ _ _ hki]
                  exact this
            · intro j b hb
              have hji : i ≠ j := fun he => by rw [← he, hseen] at hb; cases hb
              rw [seenFind_insert_ne _ _ _ _ hji]
              exact hb
            · rintro j hnone ⟨b, hsome⟩
              by_cases hji : i = j
              · subst hji
                exact Reaches.refl i
              · rw [seenFind_insert_ne _ _ _ _ hji] at hsome
                rw [hnone] at hsome
                cases hsome
            · intro _ hfalse
              cases hfalse
          | some o =>
            have hIH : ∀ j, j < i → ∀ seen nodes, WInv g seen nodes →
                WalkOut g j seen nodes (walkF g f j seen nodes) :=
              fun j hj s n hi => ihs j hj f s n (by omega) hi
            have hfold := walkFoldAux g f i hIH (walkInputs o) false seen nodes hinv
            obtain ⟨invR, htgR, hmarkR, hmonoR, ⟨d, hd⟩, hreachR⟩ := hfold
            have htr : tracks g i =
                (walkInputs o).any (fun j => decide (j < i) && tracks g j) :=
              tracks_eq_op g i node o hn hv ho
            set r := (walkInputs o).foldl (fun acc j =>
              if j < i then
                let r1 := walkF g f j acc.2.1 acc.2.2
                (acc.1 || r1.1, r1.2)
              else acc) (false, seen, nodes) with hrdef
            have hflag : r.1 = tracks g i := by
              rw [htgR, htr, Bool.false_or]
            have hres : walkF g (f + 1) i seen nodes =
                if r.1 then (r.1, seenInsert r.2.1 i r.1, r.2.2 ++ [i])
                else (r.1, seenInsert r.2.1 i r.1, r.2.2) := by
              simp [walkF, hseen, hn, hv, ho, hrdef]
            have hinone : seenFind r.2.1 i = none := by
              cases hfi : seenFind r.2.1 i with
              | none => rfl
              | some b =>
                obtain ⟨j0, _, hj0i, hj0r⟩ := hreachR i hseen ⟨b, hfi⟩
                exact absurd (Reaches_le hwf hj0r) (by omega)
            have hinotmem : i ∉ r.2.2 := fun hmem => by
              rw [(invR.mem_iff i).mp hmem] at hinone
              cases hinone
            have hwio : walkInputsOfId g i = walkInputs o := by
              simp [walkInputsOfId, hn, hv, ho]
            cases hr1 : r.1 with
            | true =>
              rw [hres, hr1, if_pos rfl]
              have htri : tracks g i = true := by rw [← hflag, hr1]
              refine ⟨⟨?_, ?_, ?_, ?_, ?_⟩, by rw [htri], ⟨true, seenFind_insert_self _ _ _⟩,
                ?_, ⟨d ++ [i], by rw [hd, List.append_assoc]⟩, ?_, fun _ _ => ⟨d, by rw [hd]⟩⟩
              · intro j
                by_cases hji : i = j
                · subst hji
                  rw [seenFind_insert_self]
                  simp
                · rw [seenFind_insert_ne _ _ _ _ hji, List.mem_append]
                  simp only [List.mem_singleton]
                  constructor
                  · rintro (hm | hm)
                    · exact (invR.mem_iff j).mp hm
                    · exact absurd hm.symm hji
                  · intro hs
                    exact Or.inl ((invR.mem_iff j).mpr hs)
              · intro j b hb
                by_cases hji : i = j
                · subst hji
                  rw [seenFind_insert_self] at hb
                  cases hb
                  exact htri.symm
                · rw [seenFind_insert_ne _ _ _ _ hji] at hb
                  exact invR.seen_tracks j b hb
              · intro j b hb k hk hklt
                by_cases hji : i = j
                · subst hji
                  rw [hwio] at hk
                  obtain ⟨b2, hb2⟩ := hmarkR k hk hklt
                  by_cases hki : i = k
                  · omega
                  · rw [seenFind_insert_ne _ _ _ _ hki, hb2]
                    simp
                · rw [seenFind_insert_ne _ _ _ _ hji] at hb
                  have := invR.closed j b hb k hk hklt
                  by_cases hki : i = k
                  · subst hki
                    rw [seenFind_insert_self]
                    simp
                  · rw [seenFind_insert_ne _ _ _ _ hki]
                    exact this
              · rw [List.nodup_append]
                exact ⟨invR.nodup, List.nodup_singleton i,
                  fun a ha hb => by
                    rw [List.mem_singleton] at hb
                    subst hb
                    exact hinotmem ha⟩
              · intro l₁ m l₂ hsplit k hk hklt hktr
                rcases append_singleton_split l₁ r.2.2 i m l₂ hsplit with
                  ⟨l₂x, hx1, _⟩ | ⟨hx1, hx2, _⟩
                · exact invR.topo l₁ m l₂x hx1 k hk hklt hktr
                · subst hx2
                  rw [hwio] at hk
                  obtain ⟨b2, hb2⟩ := hmarkR k hk hklt
                  have hbt := invR.seen_tracks k b2 hb2
                  rw [hktr] at hbt
                  rw [hx1]
                  exact (invR.mem_iff k).mpr (by rw [hb2, ← hbt])
              · intro j b hb
                have hji : i ≠ j := fun he => by rw [← he, hseen] at hb; cases hb
                rw [seenFind_insert_ne _ _ _ _ hji]
                exact hmonoR j b hb
              · rintro j hnone ⟨b, hsome⟩
                by_cases hji : i = j
                · subst hji
                  exact Reaches.refl i
                · rw [seenFind_insert_ne _ _ _ _ hji] at hsome
                  obtain ⟨j0, hj0, _, hj0r⟩ := hreachR j hnone ⟨b, hsome⟩
                  exact Reaches.step node o hn hv ho hj0 hj0r
            | false =>
              rw [hres, hr1, if_neg (by simp)]
              have htri : tracks g i = false := by rw [← hflag, hr1]
              refine ⟨⟨?_, ?_, ?_, invR.nodup, invR.topo⟩, by rw [htri],
                ⟨false, seenFind_insert_self _ _ _⟩, ?_, ⟨d, hd⟩, ?_, ?_⟩
              · intro j
                by_cases hji : i = j
                · subst hji
                  rw [seenFind_insert_self]
                  constructor
                  · intro hmem
                    exact absurd hmem hinotmem
                  · intro hh
                    cases hh
                · rw [seenFind_insert_ne _ _ _ _ hji]
                  exact invR.mem_iff j
              · intro j b hb
                by_cases hji : i = j
                · subst hji
                  rw [seenFind_insert_self] at hb
                  cases hb
                  exact htri.symm
                · rw [seenFind_insert_ne _ _ _ _ hji] at hb
                  exact invR.seen_tracks j b hb
              · intro j b hb k hk hklt
                by_cases hji : i = j
                · subst hji
                  rw [hwio] at hk
                  obtain ⟨b2, hb2⟩ := hmarkR k hk hklt
                  by_cases hki : i = k
                  · omega
                  · rw [seenFind_insert_ne _ _ _ _ hki, hb2]
                    simp
                · rw [seenFind_insert_ne _ _ _ _ hji] at hb
                  have := invR.closed j b hb k hk hklt
                  by_cases hki : i = k
                  · subst hki
                    rw [seenFind_insert_self]
                    simp
                  · rw [seenFind_insert_ne _ _ _ _ hki]
                    exact this
              · intro j b hb
                have hji : i ≠ j := fun he => by rw [← he, hseen] at hb; cases hb
                rw [seenFind_insert_ne _ _ _ _ hji]
                exact hmonoR j b hb
              · rintro j hnone ⟨b, hsome⟩
                by_cases hji : i = j
                · subst hji
                  exact Reaches.refl i
                · rw [seenFind_insert_ne _ _ _ _ hji] at hsome
                  obtain ⟨j0, hj0, _, hj0r⟩ := hreachR j hnone ⟨b, hsome⟩
                  exact Reaches.step node o hn hv ho hj0 hj0r
              · intro _ hfalse
                cases hfalse

theorem winv_nil (g : Graph) : WInv g [] [] := by
  refine ⟨?_, ?_, ?_, List.nodup_nil, ?_⟩
  · intro j
    simp [seenFind]
  · intro j b hb
    cases hb
  · intro j b hb
    cases hb
  · intro l₁ m l₂ h
    exact absurd h (by simp)

theorem walkInputsOfId_lt {g : Graph} (hwf : wfb g = true) {k m : Nat}
    (hk : k ∈ walkInputsOfId g m) : k < m := by
  unfold walkInputsOfId at hk
  cases hn : nodeAt g m with
  | none =>
    simp [hn] at hk
  | some node =>
    simp only [hn] at hk
    cases hv : node.isVar with
    | true =>
      simp [hv] at hk
    | false =>
      simp only [hv, Bool.false_eq_true, if_false] at hk
      cases ho : node.op with
      | none =>
        simp [ho] at hk
      | some o =>
        simp only [ho] at hk
        exact wf_walkInputs hwf hn ho hk

theorem sortedNodes_walkOut (g : Graph) (root : Nat) (hwf : wfb g = true) :
    WalkOut g root [] [] (walkF g (root + 1) root [] []) :=
  walkF_spec g hwf root (root + 1) [] [] (Nat.lt_succ_self root) (winv_nil g)

theorem mem_sortedNodes_iff {g : Graph} (hwf : wfb g = true) (root n : Nat) :
    n ∈ sortedNodes g root ↔ (Reaches g root n ∧ tracks g n = true) := by
  obtain ⟨invR, _, ⟨b, hb⟩, _, _, hreach, _⟩ := sortedNodes_walkOut g root hwf
  rw [sortedNodes, List.mem_reverse]
  constructor
  · intro hmem
    have hfind := (invR.mem_iff n).mp hmem
    exact ⟨hreach n rfl ⟨true, hfind⟩, (invR.seen_tracks n true hfind).symm⟩
  · rintro ⟨hre, htr⟩
    obtain ⟨b2, hb2⟩ := reach_marked hwf invR hre ⟨b, hb⟩
    have hbt := invR.seen_tracks n b2 hb2
    rw [htr] at hbt
    exact (invR.mem_iff n).mpr (by rw [hb2, hbt])

theorem sortedNodes_nodup {g : Graph} (hwf : wfb g = true) (root : Nat) :
    (sortedNodes g root).Nodup := by
  obtain ⟨invR, -, -, -, -, -, -⟩ := sortedNodes_walkOut g root hwf
  exact List.nodup_reverse.mpr invR.nodup

theorem sortedNodes_head {g : Graph} (hwf : wfb g = true) (root : Nat)
    (hne : sortedNodes g root ≠ []) : (sortedNodes g root).head? = some root := by
  obtain ⟨invR, hflag, hm, hmono, hdelta, hreach, hlast⟩ := sortedNodes_walkOut g root hwf
  have hne2 : (walkF g (root + 1) root [] []).2.2 ≠ [] := by
    intro h0
    apply hne
    rw [sortedNodes, h0]
    rfl
  obtain ⟨n, hn⟩ := List.exists_mem_of_ne_nil _ hne2
  have hfind := (invR.mem_iff n).mp hn
  have htrn : tracks g n = true := (invR.seen_tracks n true hfind).symm
  have hre : Reaches g root n := hreach n rfl ⟨true, hfind⟩
  have htroot : tracks g root = true := tracks_of_reach hwf hre htrn
  obtain ⟨pre, hpre⟩ := hlast rfl (by rw [hflag, htroot])
  rw [sortedNodes, hpre]
  simp

theorem sortedNodes_topo {g : Graph} (hwf : wfb g = true) (root : Nat) :
    ∀ l₁ m l₂, sortedNodes g root = l₁ ++ m :: l₂ → ∀ k, k ∈ walkInputsOfId g m →
      k ∈ sortedNodes g root → k ∈ l₂ := by
  obtain ⟨invR, -, -, -, -, -, -⟩ := sortedNodes_walkOut g root hwf
  intro l₁ m l₂ hsplit k hk hkmem
  have hkm : k < m := walkInputsOfId_lt hwf hk
  have htrk : tracks g k = true := ((mem_sortedNodes_iff hwf root k).mp hkmem).2
  have hrev : (walkF g (root + 1) root [] []).2.2 = l₂.reverse ++ m :: l₁.reverse := by
    have h2 : (walkF g (root + 1) root [] []).2.2 = (l₁ ++ m :: l₂).reverse := by
      rw [sortedNodes] at hsplit
      rw [← hsplit, List.reverse_reverse]
    rw [h2]
    simp
  exact List.mem_reverse.mp (invR.topo l₂.reverse m l₁.reverse hrev k hk hkm htrk)

/-! ### C4 — the `Unary Abs` gradient -/

/-- C4 counterexample: for the one-element variable `x = [0]` under `abs`
(graph `gC4`), backward succeeds and accumulates gradient `[1]` for `x`,
whereas the claim's `g · sign(x)` with `sign 0 = 0` would give `[0]`. -/
theorem c4_counterexample :
    backward gC4 TransOps.trivialOps 1 = .ok [(0, ⟨[1], [1]⟩)] ∧
      (1 : ℚ) ≠ 1 * ratSign 0 := by
  constructor
  · with_unfolding_all rfl
  · simp [ratSign]

/-- C4 (amended): a reverse step over a `Unary Abs` node accumulates
`g · (1 if x ≥ 0 else −1)` elementwise into the input's gradient — the code
uses `x.ge(0).where_cond(ones, -ones)`, which yields `+1` (not 0) at
`x = 0`. -/
theorem c4_abs_grad (g : Graph) (tr : TransOps) (st : Store) (i x : Nat)
    (node xnode : Node) (xv gv : Value)
    (hn : nodeAt g i = some node) (hvar : node.isVar = false)
    (hop : node.op = some (.unary x .abs))
    (hx : nodeAt g x = some xnode) (hxv : xnode.value = xv)
    (hgrad : storeFind st i = some gv)
    (hfresh : storeFind st x = none) (hxi : x ≠ i)
    (hsh : gv.shape = xv.shape) :
    c4Spec g tr st i x xv gv := by
  have hstep : processOne g tr st i = (do
      let mask ← liftV (valueGe xv (zerosV xv.shape))
      let absGrad ← liftV (whereCondV mask (onesV xv.shape) (valueNeg (onesV xv.shape)))
      let q ← liftV (valueMul gv absGrad)
      accAdd g (storeErase st i) x q) := by
    simp only [processOne, hn, hvar, Bool.false_eq_true, if_false,
      storeRemove_eq st i gv hgrad, hop, valueOf, hx, hxv]
    rfl
  obtain ⟨mask, hm_eq, hm_sh, hm_len, hm_pt⟩ :=
    map2Broadcast_same (fun xq yq => if yq ≤ xq then 1 else 0) xv (zerosV xv.shape)
      xv.shape rfl rfl
  obtain ⟨ag, hag_eq, hag_sh, hag_len, hag_pt⟩ :=
    whereCondV_same mask (onesV xv.shape) (valueNeg (onesV xv.shape)) xv.shape hm_sh rfl rfl
  obtain ⟨q, hq_eq, hq_sh, hq_len, hq_pt⟩ :=
    map2Broadcast_same (· * ·) gv ag xv.shape hsh hag_sh
  obtain ⟨r, hr_eq, hr_sh, hr_len, hr_pt⟩ :=
    map2Broadcast_same (· + ·) (zerosV xv.shape) q xv.shape rfl hq_sh
  have l1 : liftV (valueGe xv (zerosV xv.shape)) = .ok mask := by
    rw [show valueGe xv (zerosV xv.shape) = some mask from hm_eq]
    rfl
  have l2 : liftV (whereCondV mask (onesV xv.shape) (valueNeg (onesV xv.shape))) = .ok ag := by
    rw [hag_eq]
    rfl
  have l3 : liftV (valueMul gv ag) = .ok q := by
    rw [show valueMul gv ag = some q from hq_eq]
    rfl
  have l4 : accAdd g (storeErase st i) x q = .ok (storeInsert (storeErase st i) x r) := by
    unfold accAdd modifyGrad
    rw [storeFind_erase_ne st i x (fun he => hxi he.symm), hfresh]
    simp only [zerosLikeId, hx, hxv]
    rw [ebind_ok]
    rw [show valueAdd (zerosV xv.shape) q = some r from hr_eq]
    rfl
  refine ⟨storeInsert (storeErase st i) x r, r, ?_, storeFind_insert_self _ _ _, hr_sh, hr_len, ?_⟩
  · rw [hstep, l1, ebind_ok, l2, ebind_ok, l3, ebind_ok, l4]
  · intro nn hnn
    have e0 : (zerosV xv.shape).data.getD nn 0 = 0 := getD_replicate _ _ _ hnn
    have e1 : (onesV xv.shape).data.getD nn 0 = 1 := getD_replicate _ _ _ hnn
    have e2 : (valueNeg (onesV xv.shape)).data.getD nn 0 = -1 := by
      have : (valueNeg (onesV xv.shape)).data = List.replicate (prodl xv.shape) (-1 : ℚ) := by
        simp [valueNeg, onesV, List.map_replicate]
      rw [this]
      exact getD_replicate _ _ _ hnn
    rw [hr_pt nn hnn, e0, hq_pt nn hnn, hag_pt nn hnn, hm_pt nn hnn, e0, e1, e2]
    by_cases hle : 0 ≤ xv.data.getD nn 0
    · rw [if_pos hle, if_neg (by norm_num), if_pos hle]
      ring
    · rw [if_neg hle, if_pos rfl, if_neg hle]
      ring

/-- C4 witness: the amended statement instantiated on `abs` of the variable
`[2]` with an incoming gradient of ones. -/
theorem c4_abs_grad_witness :
    nodeAt gC4w 1 = some (onode [1] [2] (.unary 0 .abs)) ∧
      c4Spec gC4w TransOps.trivialOps [(1, onesV [1])] 1 0 ⟨[1], [2]⟩ (onesV [1]) :=
  ⟨rfl, c4_abs_grad _ _ _ _ _ (onode [1] [2] (.unary 0 .abs)) (vnode [1] [2]) _ _
    rfl rfl rfl rfl rfl rfl rfl (by decide) rfl⟩

/-! ### C6 — reshape through a non-contiguous transpose -/

/-- C6: for `x = [1,2,3,4]`, the chain `x.reshape([2,2]).t().reshape([4])`
succeeds with elements `[1,3,2,4]`, even though the transposed intermediate
view is not contiguous, so the §4.A reshape rule (embedded verbatim as
`reshapeChecked`) would reject the final reshape. -/
theorem c6_reshape_transpose_chain :
    ((((reshapeL (fromVec1 [1, 2, 3, 4]) [2, 2]).bind tL).bind
        (fun t => reshapeL t [4])).bind toVec1 = some [1, 3, 2, 4]) ∧
    (((reshapeL (fromVec1 [1, 2, 3, 4]) [2, 2]).bind tL).map
        (fun t => t.layout.isContiguous) = some false) ∧
    (((reshapeL (fromVec1 [1, 2, 3, 4]) [2, 2]).bind tL).bind
        (fun t => reshapeChecked t [4]) = none) := by
  decide

/-! ### C9 — integer unary kernels panic instead of returning errors -/

/-- C9: the claim (and spec §7) promise that failures are value-returned and
API calls never unwind, but the `unary_op!`-generated `u8`/`u32` scalar
functions in `op.rs` are `todo!()` panics, so a unary op such as `exp` on a
nonempty `U8` tensor unwinds instead of producing an error value. -/
theorem c9_unary_u8_panics :
    unaryU8 .exp 0 = .panicMsg "no unary function for u8" ∧
    unaryU32 .log 1 = .panicMsg "no unary function for u32" ∧
    unaryMapU8 .exp [0] = .error "no unary function for u8" ∧
    unaryMapU8 .relu [3, 5] = .ok [3, 5] :=
  ⟨rfl, rfl, rfl, rfl⟩

/-! ### C10 — `par_range` ignores `lo` on the threaded path -/

theorem stepRangeList_mem {t up n i : Nat} (hn : 0 < n) :
    i ∈ stepRangeList t up n ↔ t ≤ i ∧ i < up ∧ (i - t) % n = 0 := by
  unfold stepRangeList
  simp only [List.mem_map, List.mem_range]
  constructor
  · rintro ⟨k, hk, rfl⟩
    refine ⟨Nat.le_add_right _ _, ?_, by simp [Nat.add_sub_cancel_left, Nat.mul_mod_left]⟩
    have h2 : k + 1 ≤ (up - t + n - 1) / n := hk
    have h3 : (k + 1) * n ≤ ((up - t + n - 1) / n) * n := Nat.mul_le_mul_right n h2
    rw [Nat.succ_mul] at h3
    have h4 : ((up - t + n - 1) / n) * n ≤ up - t + n - 1 := Nat.div_mul_le_self _ _
    omega
  · rintro ⟨h1, h2, h3⟩
    have hd : n ∣ i - t := Nat.dvd_of_mod_eq_zero h3
    refine ⟨(i - t) / n, ?_, ?_⟩
    · have e0 : up - t + n - 1 = up - t - 1 + n := by omega
      rw [e0, Nat.add_div_right _ hn]
      have e1 : (i - t) / n ≤ (up - t - 1) / n := Nat.div_le_div_right (by omega)
      omega
    · have := Nat.div_mul_cancel hd
      omega

theorem stepRangeList_nodup (t up n : Nat) (hn : 0 < n) :
    (stepRangeList t up n).Nodup := by
  unfold stepRangeList
  refine List.Nodup.map ?_ (List.nodup_range _)
  intro a b hab
  have hab2 : t + a * n = t + b * n := hab
  have h1 : a * n = b * n := by omega
  exact Nat.eq_of_mul_eq_mul_right hn h1

theorem stepRangeList_count (t up n i : Nat) (hn : 0 < n) :
    (stepRangeList t up n).count i =
      if t ≤ i ∧ i < up ∧ (i - t) % n = 0 then 1 else 0 := by
  by_cases h : t ≤ i ∧ i < up ∧ (i - t) % n = 0
  · rw [if_pos h]
    exact List.count_eq_one_of_mem (stepRangeList_nodup t up n hn)
      ((stepRangeList_mem hn).mpr h)
  · rw [if_neg h]
    exact List.count_eq_zero_of_not_mem (fun hm => h ((stepRangeList_mem hn).mp hm))

theorem sum_indicator_range (n v : Nat) :
    ((List.range n).map (fun t => if t = v then 1 else 0)).sum =
      if v < n then 1 else 0 := by
  induction n with
  | zero => simp
  | succ n ih =>
    rw [List.range_succ, List.map_append, List.sum_append, ih]
    simp only [List.map_cons, List.map_nil, List.sum_cons, List.sum_nil]
    split_ifs <;> omega

theorem mod_char (t n i : Nat) (_hn : 0 < n) (ht : t < n) :
    (t ≤ i ∧ (i - t) % n = 0) ↔ t = i % n := by
  constructor
  · rintro ⟨h1, h2⟩
    obtain ⟨k, hk⟩ := Nat.dvd_of_mod_eq_zero h2
    have hi : i = t + n * k := by omega
    subst hi
    rw [Nat.add_mul_mod_self_left]
    exact (Nat.mod_eq_of_lt ht).symm
  · rintro rfl
    refine ⟨Nat.mod_le _ _, ?_⟩
    have h5 : i - i % n = n * (i / n) := by
      have := Nat.mod_add_div i n
      omega
    rw [h5, Nat.mul_mod_right]

/-- C10 (amended): `par_range(lo, up, n_threads, f)` applies `f` exactly once
to each index of `lo..up` when `n_threads = 1`, but exactly once to each
index of `0..up` — ignoring `lo` — when `n_threads ≥ 2` (and not at all when
`n_threads = 0`). -/
theorem c10_par_range_indices (lo up n i : Nat) :
    (parRangeIndices lo up n).count i =
      if n = 1 then (if lo ≤ i ∧ i < up then 1 else 0)
      else if n = 0 then 0
      else if i < up then 1 else 0 := by
  unfold parRangeIndices
  by_cases h1 : n = 1
  · subst h1
    rw [if_pos rfl, if_pos rfl]
    by_cases h : lo ≤ i ∧ i < up
    · rw [if_pos h]
      exact List.count_eq_one_of_mem (List.nodup_range' _ _)
        (List.mem_range'_1.mpr ⟨h.1, by omega⟩)
    · rw [if_neg h]
      refine List.count_eq_zero_of_not_mem (fun hm => ?_)
      have := List.mem_range'_1.mp hm
      omega
  · rw [if_neg h1, if_neg h1]
    by_cases h0 : n = 0
    · subst h0
      simp
    · have hn : 0 < n := Nat.pos_of_ne_zero h0
      rw [if_neg h0, List.count_flatMap]
      have hmap : ((List.range n).map (List.count i ∘ fun t => stepRangeList t up n)) =
          (List.range n).map (fun t => if t = i % n ∧ i < up then 1 else 0) := by
        refine List.map_congr_left ?_
        intro t htm
        have ht : t < n := List.mem_range.mp htm
        simp only [Function.comp_apply]
        rw [stepRangeList_count t up n i hn]
        refine if_congr ?_ rfl rfl
        have hm := mod_char t n i hn ht
        constructor
        · rintro ⟨a, b, c⟩
          exact ⟨hm.mp ⟨a, c⟩, b⟩
        · rintro ⟨he, b⟩
          have hc := hm.mpr he
          exact ⟨hc.1, b, hc.2⟩
      rw [hmap]
      by_cases hup : i < up
      · simp only [hup, and_true]
        rw [sum_indicator_range n (i % n), if_pos (Nat.mod_lt _ hn)]
        simp
      · simp [hup]

/-! ### C7 — `Var::set` -/

theorem getD_set_ne (l : List ℚ) (i j : Nat) (a : ℚ) (h : i ≠ j) :
    (l.set i a).getD j 0 = l.getD j 0 := by
  simp [List.getD_eq_getElem?_getD, List.getElem?_set_ne h]

theorem writeFrom_length (vals : List ℚ) (dst : List ℚ) (off : Nat) :
    (writeFrom dst off vals).length = dst.length := by
  induction vals generalizing dst off with
  | nil => rfl
  | cons q rest ih => rw [writeFrom, ih, List.length_set]

theorem writeFrom_getD_lt (vals : List ℚ) (dst : List ℚ) (off p : Nat) (hp : p < off) :
    (writeFrom dst off vals).getD p 0 = dst.getD p 0 := by
  induction vals generalizing dst off with
  | nil => rfl
  | cons q rest ih =>
    rw [writeFrom, ih _ _ (by omega), getD_set_ne _ _ _ _ (by omega)]

theorem writeFrom_getD_ge (vals : List ℚ) (dst : List ℚ) (off p : Nat)
    (hp : off + vals.length ≤ p) :
    (writeFrom dst off vals).getD p 0 = dst.getD p 0 := by
  induction vals generalizing dst off with
  | nil => rfl
  | cons q rest ih =>
    rw [writeFrom, ih _ _ (by simp at hp ⊢; omega), getD_set_ne _ _ _ _ (by simp at hp; omega)]

theorem writeFrom_getD_in (vals : List ℚ) (dst : List ℚ) (off k : Nat)
    (hk : k < vals.length) (hlen : off + vals.length ≤ dst.length) :
    (writeFrom dst off vals).getD (off + k) 0 = vals.getD k 0 := by
  induction vals generalizing dst off k with
  | nil => simp at hk
  | cons q rest ih =>
    cases k with
    | zero =>
      rw [writeFrom, writeFrom_getD_lt _ _ _ _ (by omega)]
      simp only [Nat.add_zero, List.getD_eq_getElem?_getD]
      rw [List.getElem?_set_self (by simp at hlen; omega)]
      simp
    | succ k =>
      rw [writeFrom]
      have h2 := ih (dst.set off q) (off + 1) k (by simp at hk; omega)
        (by simp at hlen ⊢; omega)
      have e : off + (k + 1) = off + 1 + k := by omega
      rw [e, h2]
      simp

/-- C7: `Var::set` fails with `CannotSetVar` when the source aliases the
variable's storage or the variable's layout is not contiguous, fails with
`ShapeMismatchBinaryOp{op:"set"}` on differing shapes, and otherwise
overwrites the existing storage elementwise from the source read through its
strided layout, preserving the tensor id, storage identity, layout and
storage length (no allocation); in this pure embedding a failing call
returns no new state, so the variable is unchanged on failure. -/
theorem c7_var_set (v src : LTensor)
    (hlen : v.layout.offset + prodl src.layout.shape ≤ v.storage.length) :
    c7Spec v src := by
  unfold c7Spec varSet
  refine ⟨fun h => by rw [if_pos h], fun h1 h2 => by rw [if_neg h1, if_pos h2],
    fun h1 h2 h3 => ?_, fun h1 h2 h3 => ?_⟩
  · rw [if_neg h1, if_neg (by simpa using h2), if_pos h3]
  · rw [if_neg h1, if_neg (by simpa using h2), if_neg (by simpa using h3), if_pos hlen]
    have hsr : (stridedRead src).length = prodl src.layout.shape := by
      simp [stridedRead, enumIndices]
    refine ⟨_, rfl, rfl, rfl, rfl, writeFrom_length _ _ _, ?_, ?_, ?_⟩
    · intro k hk
      exact writeFrom_getD_in _ _ _ _ (by omega) (by omega)
    · intro p hp
      exact writeFrom_getD_lt _ _ _ _ hp
    · intro p hp
      exact writeFrom_getD_ge _ _ _ _ (by omega)

/-- C7 witness: a concrete contiguous 2×2 variable set from a transposed
(strided) source satisfies the hypothesis and the conclusion of
`c7_var_set`. -/
theorem c7_var_set_witness :
    ((⟨7, 1, [0, 0, 0, 0], ⟨[2, 2], [2, 1], 0⟩⟩ : LTensor).layout.offset +
        prodl (⟨8, 2, [1, 2, 3, 4], ⟨[2, 2], [1, 2], 0⟩⟩ : LTensor).layout.shape ≤
        (⟨7, 1, [0, 0, 0, 0], ⟨[2, 2], [2, 1], 0⟩⟩ : LTensor).storage.length) ∧
      c7Spec ⟨7, 1, [0, 0, 0, 0], ⟨[2, 2], [2, 1], 0⟩⟩
        ⟨8, 2, [1, 2, 3, 4], ⟨[2, 2], [1, 2], 0⟩⟩ :=
  ⟨by decide, c7_var_set _ _ (by decide)⟩

/-! ### C8 — the quantized-matmul provider forward -/

/-- C8: with a stored quantized weight of shape `(K, N)`, the provider's cpu
forward succeeds only on a contiguous `F32` input of rank at least 2 whose
last dim equals `K` (erroring otherwise), and success produces `F32` storage
of the input shape with the last dim replaced by `N`. -/
theorem c8_qmatmul_fwd (q : QTensorM) (storage : CpuStorage) (layout : Layout)
    (k n : Nat) (hq : q.shape = [k, n]) :
    c8Spec q storage layout k n := by
  unfold c8Spec qmatmulCpuFwd
  rw [hq]
  constructor
  · intro out sh hok
    by_cases hc : layout.isContiguous = true
    case neg =>
      rw [if_pos (by simpa using hc)] at hok
      simp at hok
    rw [if_neg (by simpa using hc)] at hok
    simp only [dims2] at hok
    by_cases hr : layout.shape.length < 2
    · rw [if_pos hr] at hok
      simp at hok
    rw [if_neg hr] at hok
    by_cases hk : layout.shape.getLastD 0 ≠ k
    · rw [if_pos hk] at hok
      simp at hok
    rw [if_neg hk] at hok
    by_cases hf : storage.dtype = DType.f32
    · simp only [asSliceF32, hf, if_pos] at hok
      by_cases hb : layout.offset + prodl layout.shape ≤ storage.data.length
      · rw [if_pos hb] at hok
        have h1 : out = ⟨DType.f32, matmulT (prodl (layout.shape.dropLast ++ [n]) / n) k n
            ((storage.data.drop layout.offset).take (prodl layout.shape)) q.data⟩ ∧
            sh = layout.shape.dropLast ++ [n] := by
          cases hok
          exact ⟨rfl, rfl⟩
        refine ⟨hf, hc, by omega, by omega, h1.2, by rw [h1.1]⟩
      · rw [if_neg hb] at hok
        simp at hok
    · simp only [asSliceF32, hf, if_neg] at hok
      simp at hok
  · intro hbad
    by_cases hc : layout.isContiguous = true
    case neg =>
      exact ⟨_, by rw [if_pos (by simpa using hc)]⟩
    rw [if_neg (by simpa using hc)]
    simp only [dims2]
    by_cases hr : layout.shape.length < 2
    · exact ⟨_, by rw [if_pos hr]⟩
    rw [if_neg hr]
    by_cases hk : layout.shape.getLastD 0 ≠ k
    · exact ⟨_, by rw [if_pos hk]⟩
    rw [if_neg hk]
    by_cases hf : storage.dtype = DType.f32
    · exfalso
      rcases hbad with h | h | h | h
      · exact h hf
      · rw [h] at hc
        exact absurd hc (by simp)
      · exact hr h
      · exact hk h
    · simp only [asSliceF32, hf, if_neg]
      exact ⟨_, rfl⟩

/-- C8 witness: a concrete `(2, 3)` weight against a contiguous `F32` input
of shape `(2, 2)` instantiates `c8_qmatmul_fwd`. -/
theorem c8_qmatmul_fwd_witness :
    (QTensorM.mk [2, 3] [1, 0, 0, 0, 1, 0]).shape = [2, 3] ∧
      c8Spec ⟨[2, 3], [1, 0, 0, 0, 1, 0]⟩ ⟨.f32, [1, 2, 3, 4]⟩ ⟨[2, 2], [2, 1], 0⟩ 2 3 :=
  ⟨rfl, c8_qmatmul_fwd _ _ _ 2 3 rfl⟩

/-- C10 counterexample: at `lo = 1`, `up = 2`, `n_threads = 2` (so `lo ≤ up`
and `n_threads ≥ 1`), `par_range` applies `f` to index `0`, which lies below
`lo` — refuting "to each index in `lo..up` and to no other index". -/
theorem c10_counterexample :
    (1 ≤ 2 ∧ 1 ≤ 2) ∧ (parRangeIndices 1 2 2).count 0 = 1 ∧ 0 < 1 := by
  decide




/-! ### The reverse pass: store-mutation discipline of one step -/

theorem bindE_eq_ok {α β : Type} {x : Except BErr α} {f : α → Except BErr β} {b : β}
    (h : (x >>= f) = .ok b) : ∃ a, x = .ok a ∧ f a = .ok b := by
  cases x with
  | error e => simp [Bind.bind, Except.bind] at h
  | ok a => exact ⟨a, rfl, h⟩

theorem insChain_trans {t : List Nat} {s1 s2 s3 : Store}
    (h1 : InsChain t s1 s2) (h2 : InsChain t s2 s3) : InsChain t s1 s3 := by
  induction h2 with
  | refl => exact h1
  | step v hj _ ih => exact .step v hj ih

theorem insChain_find_other {t : List Nat} {s1 s2 : Store} (h : InsChain t s1 s2)
    {n : Nat} (hn : n ∉ t) : storeFind s2 n = storeFind s1 n := by
  induction h with
  | refl => rfl
  | @step s j v hmem hc ih =>
    rw [storeFind_insert_ne _ _ _ _ (fun he => hn (by rw [← he]; exact hmem))]
    exact ih

theorem insChain_find_some {t : List Nat} {s1 s2 : Store} (h : InsChain t s1 s2)
    {n : Nat} (hs : storeFind s1 n ≠ none) : storeFind s2 n ≠ none := by
  induction h with
  | refl => exact hs
  | @step s j v hmem hc ih =>
    by_cases he : j = n
    · subst he
      rw [storeFind_insert_self]
      simp
    · rw [storeFind_insert_ne _ _ _ _ he]
      exact ih

theorem chainP_ok {t : List Nat} {st : Store} : chainP t st (.ok st) := by
  intro st2 h
  cases h
  exact .refl st

theorem chainP_error {t : List Nat} {st : Store} {e : BErr} :
    chainP t st (.error e) := by
  intro st2 h
  cases h

theorem chainP_pure {t : List Nat} {st : Store} : chainP t st (pure st) :=
  chainP_ok

theorem chainP_bind_val {α : Type} {t : List Nat} {st : Store} {x : Except BErr α}
    {f : α → Except BErr Store} (hf : ∀ a, chainP t st (f a)) :
    chainP t st (x >>= f) := by
  intro st2 h
  obtain ⟨a, -, h2⟩ := bindE_eq_ok h
  exact hf a st2 h2

theorem chainP_bind_store {t : List Nat} {st : Store} {x : Except BErr Store}
    {f : Store → Except BErr Store} (hx : chainP t st x)
    (hf : ∀ st1, chainP t st1 (f st1)) : chainP t st (x >>= f) := by
  intro st2 h
  obtain ⟨st1, h1, h2⟩ := bindE_eq_ok h
  exact insChain_trans (hx st1 h1) (hf st1 st2 h2)

theorem modifyGrad_chain {g : Graph} {st : Store} {a : Nat}
    {f : Value → Except BErr Value} {t : List Nat} (ha : a ∈ t) :
    chainP t st (modifyGrad g st a f) := by
  intro st2 h
  unfold modifyGrad at h
  cases hfind : storeFind st a with
  | some v0 =>
    simp only [hfind] at h
    obtain ⟨cur, -, h2⟩ := bindE_eq_ok h
    obtain ⟨v, -, h3⟩ := bindE_eq_ok h2
    have hst2 : storeInsert st a v = st2 := by
      simpa [pure, Except.pure] using h3
    rw [← hst2]
    exact .step v ha (.refl st)
  | none =>
    simp only [hfind] at h
    obtain ⟨cur, -, h2⟩ := bindE_eq_ok h
    obtain ⟨v, -, h3⟩ := bindE_eq_ok h2
    have hst2 : storeInsert st a v = st2 := by
      simpa [pure, Except.pure] using h3
    rw [← hst2]
    exact .step v ha (.refl st)

theorem accAdd_chain {g : Graph} {st : Store} {a : Nat} {v : Value} {t : List Nat}
    (ha : a ∈ t) : chainP t st (accAdd g st a v) :=
  modifyGrad_chain ha

theorem accSub_chain {g : Graph} {st : Store} {a : Nat} {v : Value} {t : List Nat}
    (ha : a ∈ t) : chainP t st (accSub g st a v) :=
  modifyGrad_chain ha

theorem catGrads_chain {g : Graph} {dim : Nat} {grad : Value} {t : List Nat} :
    ∀ (args : List Nat) (s0 : Nat) (st : Store), (∀ j, j ∈ args → j ∈ t) →
      chainP t st (catGrads g dim grad args s0 st) := by
  intro args
  induction args with
  | nil =>
    intro s0 st _
    exact chainP_ok
  | cons a rest ih =>
    intro s0 st hsub st2 h
    rw [catGrads] at h
    obtain ⟨ash, -, h⟩ := bindE_eq_ok h
    obtain ⟨agrad, -, h⟩ := bindE_eq_ok h
    obtain ⟨st1, h3, h⟩ := bindE_eq_ok h
    exact insChain_trans (accAdd_chain (hsub a (by simp)) st1 h3)
      (ih _ st1 (fun j hj => hsub j (by simp [hj])) st2 h)

theorem reduceMaxMinGrad_chain {g : Graph} {st : Store} {arg : Nat}
    {rdims : List Nat} {nv gv : Value} {t : List Nat} (ha : arg ∈ t) :
    chainP t st (reduceMaxMinGrad g st arg rdims nv gv) := by
  unfold reduceMaxMinGrad
  exact chainP_bind_val fun _ => chainP_bind_val fun _ => chainP_bind_val fun _ =>
    chainP_bind_val fun _ => chainP_bind_val fun _ => chainP_bind_val fun _ =>
      modifyGrad_chain ha


theorem processOne_effect {g : Graph} {tr : TransOps} {st : Store} {i : Nat}
    {node : Node} (hn : nodeAt g i = some node) (hv : node.isVar = false)
    {gv : Value} (hfind : storeFind st i = some gv) :
    chainP (opInputsN node) (storeErase st i) (processOne g tr st i) := by
  cases hop : node.op with
  | none =>
    intro st2 h
    simp only [processOne, hn, hv, Bool.false_eq_true, if_false,
      storeRemove_eq st i gv hfind, hop] at h
    cases h
    exact .refl _
  | some op =>
    have ht : opInputsN node = opInputs op := by rw [opInputsN, hop]
    rw [ht]
    cases op with
    | binary lhs rhs k =>
      cases k with
      | add =>
        simp only [processOne, hn, hv, Bool.false_eq_true, if_false,
          storeRemove_eq st i gv hfind, hop]
        exact chainP_bind_store (accAdd_chain (by simp [opInputs])) fun _ => accAdd_chain (by simp [opInputs])
      | sub =>
        simp only [processOne, hn, hv, Bool.false_eq_true, if_false,
          storeRemove_eq st i gv hfind, hop]
        exact chainP_bind_store (accAdd_chain (by simp [opInputs])) fun _ => accSub_chain (by simp [opInputs])
      | mul =>
        simp only [processOne, hn, hv, Bool.false_eq_true, if_false,
          storeRemove_eq st i gv hfind, hop]
        exact chainP_bind_val fun _ => chainP_bind_val fun _ => chainP_bind_store (accAdd_chain (by simp [opInputs]))
            fun _ => chainP_bind_val fun _ => chainP_bind_val fun _ => accAdd_chain (by simp [opInputs])
      | div =>
        simp only [processOne, hn, hv, Bool.false_eq_true, if_false,
          storeRemove_eq st i gv hfind, hop]
        exact chainP_bind_val fun _ => chainP_bind_val fun _ => chainP_bind_store (accAdd_chain (by simp [opInputs]))
            fun _ => chainP_bind_val fun _ => chainP_bind_val fun _ => chainP_bind_val fun _ => accSub_chain (by simp [opInputs])
    | unary a u =>
      cases u with
      | log =>
        simp only [processOne, hn, hv, Bool.false_eq_true, if_false,
          storeRemove_eq st i gv hfind, hop]
        exact chainP_bind_val fun _ => chainP_bind_val fun _ => accAdd_chain (by simp [opInputs])
      | sin =>
        simp only [processOne, hn, hv, Bool.false_eq_true, if_false,
          storeRemove_eq st i gv hfind, hop]
        exact chainP_bind_val fun _ => chainP_bind_val fun _ => accAdd_chain (by simp [opInputs])
      | cos =>
        simp only [processOne, hn, hv, Bool.false_eq_true, if_false,
          storeRemove_eq st i gv hfind, hop]
        exact chainP_bind_val fun _ => chainP_bind_val fun _ => accSub_chain (by simp [opInputs])
      | abs =>
        simp only [processOne, hn, hv, Bool.false_eq_true, if_false,
          storeRemove_eq st i gv hfind, hop]
        exact chainP_bind_val fun _ => chainP_bind_val fun _ => chainP_bind_val fun _ => chainP_bind_val fun _ => accAdd_chain (by simp [opInputs])
      | exp =>
        simp only [processOne, hn, hv, Bool.false_eq_true, if_false,
          storeRemove_eq st i gv hfind, hop]
        exact chainP_bind_val fun _ => accAdd_chain (by simp [opInputs])
      | neg =>
        simp only [processOne, hn, hv, Bool.false_eq_true, if_false,
          storeRemove_eq st i gv hfind, hop]
        exact accSub_chain (by simp [opInputs])
      | recip =>
        simp only [processOne, hn, hv, Bool.false_eq_true, if_false,
          storeRemove_eq st i gv hfind, hop]
        exact chainP_bind_val fun _ => chainP_bind_val fun _ => accSub_chain (by simp [opInputs])
      | gelu =>
        simp only [processOne, hn, hv, Bool.false_eq_true, if_false,
          storeRemove_eq st i gv hfind, hop]
        exact chainP_error
      | relu =>
        simp only [processOne, hn, hv, Bool.false_eq_true, if_false,
          storeRemove_eq st i gv hfind, hop]
        exact chainP_bind_val fun _ => chainP_bind_val fun _ => chainP_bind_val fun _ => accAdd_chain (by simp [opInputs])
      | sqr =>
        simp only [processOne, hn, hv, Bool.false_eq_true, if_false,
          storeRemove_eq st i gv hfind, hop]
        exact chainP_bind_val fun _ => chainP_bind_val fun _ => accAdd_chain (by simp [opInputs])
      | sqrt =>
        simp only [processOne, hn, hv, Bool.false_eq_true, if_false,
          storeRemove_eq st i gv hfind, hop]
        exact chainP_bind_val fun _ => accAdd_chain (by simp [opInputs])
    | cmp a k =>
      simp only [processOne, hn, hv, Bool.false_eq_true, if_false,
        storeRemove_eq st i gv hfind, hop]
      exact chainP_ok
    | reduce a r d =>
      cases r with
      | sum =>
        simp only [processOne, hn, hv, Bool.false_eq_true, if_false,
          storeRemove_eq st i gv hfind, hop]
        exact chainP_bind_val fun _ => chainP_bind_val fun _ => accAdd_chain (by simp [opInputs])
      | max =>
        simp only [processOne, hn, hv, Bool.false_eq_true, if_false,
          storeRemove_eq st i gv hfind, hop]
        exact reduceMaxMinGrad_chain (by simp [opInputs])
      | min =>
        simp only [processOne, hn, hv, Bool.false_eq_true, if_false,
          storeRemove_eq st i gv hfind, hop]
        exact reduceMaxMinGrad_chain (by simp [opInputs])
      | argMin =>
        simp only [processOne, hn, hv, Bool.false_eq_true, if_false,
          storeRemove_eq st i gv hfind, hop]
        exact chainP_ok
      | argMax =>
        simp only [processOne, hn, hv, Bool.false_eq_true, if_false,
          storeRemove_eq st i gv hfind, hop]
        exact chainP_ok
    | matmul lhs rhs =>
      simp only [processOne, hn, hv, Bool.false_eq_true, if_false,
        storeRemove_eq st i gv hfind, hop]
      exact chainP_bind_val fun _ => chainP_bind_val fun _ => chainP_bind_val fun _ => chainP_bind_store (accAdd_chain (by simp [opInputs]))
        fun _ => chainP_bind_val fun _ => chainP_bind_val fun _ => chainP_bind_val fun _ => accAdd_chain (by simp [opInputs])
    | gather a idx dim =>
      simp only [processOne, hn, hv, Bool.false_eq_true, if_false,
        storeRemove_eq st i gv hfind, hop]
      exact chainP_bind_val fun _ => modifyGrad_chain (by simp [opInputs])
    | scatterAdd init idx src dim =>
      simp only [processOne, hn, hv, Bool.false_eq_true, if_false,
        storeRemove_eq st i gv hfind, hop]
      exact chainP_bind_store (accAdd_chain (by simp [opInputs])) fun _ => chainP_bind_val fun _ => chainP_bind_val fun _ => accAdd_chain (by simp [opInputs])
    | indexSelect a idx dim =>
      simp only [processOne, hn, hv, Bool.false_eq_true, if_false,
        storeRemove_eq st i gv hfind, hop]
      exact chainP_bind_val fun _ => modifyGrad_chain (by simp [opInputs])
    | indexAdd init idx src dim =>
      simp only [processOne, hn, hv, Bool.false_eq_true, if_false,
        storeRemove_eq st i gv hfind, hop]
      exact chainP_bind_store (accAdd_chain (by simp [opInputs])) fun _ => chainP_bind_val fun _ => chainP_bind_val fun _ => accAdd_chain (by simp [opInputs])
    | whereCond p a b =>
      simp only [processOne, hn, hv, Bool.false_eq_true, if_false,
        storeRemove_eq st i gv hfind, hop]
      exact chainP_bind_val fun _ => chainP_bind_val fun _ => chainP_bind_store (accAdd_chain (by simp [opInputs])) fun _ => chainP_bind_val fun _ => accAdd_chain (by simp [opInputs])
    | conv1d a k p q =>
      simp only [processOne, hn, hv, Bool.false_eq_true, if_false,
        storeRemove_eq st i gv hfind, hop]
      exact chainP_error
    | conv2d a k p q =>
      simp only [processOne, hn, hv, Bool.false_eq_true, if_false,
        storeRemove_eq st i gv hfind, hop]
      exact chainP_error
    | avgPool2d a k q =>
      simp only [processOne, hn, hv, Bool.false_eq_true, if_false,
        storeRemove_eq st i gv hfind, hop]
      exact chainP_error
    | maxPool2d a k q =>
      simp only [processOne, hn, hv, Bool.false_eq_true, if_false,
        storeRemove_eq st i gv hfind, hop]
      exact chainP_error
    | upsampleNearest2d a =>
      simp only [processOne, hn, hv, Bool.false_eq_true, if_false,
        storeRemove_eq st i gv hfind, hop]
      exact chainP_error
    | cat args dim =>
      simp only [processOne, hn, hv, Bool.false_eq_true, if_false,
        storeRemove_eq st i gv hfind, hop]
      exact catGrads_chain args 0 (storeErase st i) (fun j hj => by simpa [opInputs] using hj)
    | affine a mul add =>
      simp only [processOne, hn, hv, Bool.false_eq_true, if_false,
        storeRemove_eq st i gv hfind, hop]
      exact accAdd_chain (by simp [opInputs])
    | toDType a =>
      simp only [processOne, hn, hv, Bool.false_eq_true, if_false,
        storeRemove_eq st i gv hfind, hop]
      exact modifyGrad_chain (by simp [opInputs])
    | copy a =>
      simp only [processOne, hn, hv, Bool.false_eq_true, if_false,
        storeRemove_eq st i gv hfind, hop]
      exact accAdd_chain (by simp [opInputs])
    | broadcast a =>
      simp only [processOne, hn, hv, Bool.false_eq_true, if_false,
        storeRemove_eq st i gv hfind, hop]
      exact chainP_bind_val fun _ => chainP_bind_val fun _ => chainP_bind_val fun _ => modifyGrad_chain (by simp [opInputs])
    | narrow a dim st0 len =>
      simp only [processOne, hn, hv, Bool.false_eq_true, if_false,
        storeRemove_eq st i gv hfind, hop]
      refine chainP_bind_val fun ad => ?_
      cases (if st0 = 0 then none else some (zerosV (List.set ad dim st0))) <;>
        cases (if List.getD ad dim 0 - st0 - len = 0 then none
          else some (zerosV (List.set ad dim (List.getD ad dim 0 - st0 - len)))) <;>
        exact chainP_bind_val fun _ => accAdd_chain (by simp [opInputs])
    | reshape a =>
      simp only [processOne, hn, hv, Bool.false_eq_true, if_false,
        storeRemove_eq st i gv hfind, hop]
      exact chainP_bind_val fun _ => chainP_bind_val fun _ => accAdd_chain (by simp [opInputs])
    | toDevice a =>
      simp only [processOne, hn, hv, Bool.false_eq_true, if_false,
        storeRemove_eq st i gv hfind, hop]
      exact modifyGrad_chain (by simp [opInputs])
    | transpose a d1 d2 =>
      simp only [processOne, hn, hv, Bool.false_eq_true, if_false,
        storeRemove_eq st i gv hfind, hop]
      exact chainP_bind_val fun _ => accAdd_chain (by simp [opInputs])
    | elu a al =>
      simp only [processOne, hn, hv, Bool.false_eq_true, if_false,
        storeRemove_eq st i gv hfind, hop]
      exact chainP_error
    | customOp1 a c =>
      simp only [processOne, hn, hv, Bool.false_eq_true, if_false,
        storeRemove_eq st i gv hfind, hop]
      refine chainP_bind_val fun _ => chainP_bind_val fun r => ?_
      cases r with
      | none => exact chainP_ok
      | some ag => exact accAdd_chain (by simp [opInputs])
    | customOp2 a1 a2 c =>
      simp only [processOne, hn, hv, Bool.false_eq_true, if_false,
        storeRemove_eq st i gv hfind, hop]
      refine chainP_bind_val fun _ => chainP_bind_val fun _ => chainP_bind_val fun pr => ?_
      obtain ⟨g1, g2⟩ := pr
      cases g1 <;> cases g2 <;>
        refine chainP_bind_store ?_ fun st1 => ?_ <;>
        first
          | exact chainP_pure
          | exact chainP_ok
          | exact accAdd_chain (by simp [opInputs])
    | customOp3 a1 a2 a3 c =>
      simp only [processOne, hn, hv, Bool.false_eq_true, if_false,
        storeRemove_eq st i gv hfind, hop]
      refine chainP_bind_val fun _ => chainP_bind_val fun _ => chainP_bind_val fun _ =>
        chainP_bind_val fun pr => ?_
      obtain ⟨g1, g2, g3⟩ := pr
      cases g1 <;> cases g2 <;> cases g3 <;>
        refine chainP_bind_store ?_ fun st1 => chainP_bind_store ?_ fun st2 => ?_ <;>
        first
          | exact chainP_pure
          | exact chainP_ok
          | exact accAdd_chain (by simp [opInputs])


/-! ### The reverse loop: per-node and whole-pass facts -/

theorem processOne_var {g : Graph} {tr : TransOps} {st : Store} {i : Nat}
    {node : Node} (hn : nodeAt g i = some node) (hv : node.isVar = true) :
    processOne g tr st i = .ok st := by
  simp [processOne, hn, hv]

theorem processOne_ok_node {g : Graph} {tr : TransOps} {st st2 : Store} {i : Nat}
    (h : processOne g tr st i = .ok st2) : ∃ node, nodeAt g i = some node := by
  cases hn : nodeAt g i with
  | some node => exact ⟨node, rfl⟩
  | none => simp [processOne, hn] at h

theorem processOne_ok_find {g : Graph} {tr : TransOps} {st st2 : Store} {i : Nat}
    {node : Node} (h : processOne g tr st i = .ok st2)
    (hn : nodeAt g i = some node) (hv : node.isVar = false) :
    ∃ gv, storeFind st i = some gv := by
  cases hf : storeFind st i with
  | some gv => exact ⟨gv, rfl⟩
  | none => simp [processOne, hn, hv, storeRemove, hf] at h

theorem processOne_find_self {g : Graph} {tr : TransOps} {st st2 : Store} {i : Nat}
    {node : Node} (hwf : wfb g = true) (hn : nodeAt g i = some node)
    (hv : node.isVar = false) (h : processOne g tr st i = .ok st2) :
    storeFind st2 i = none := by
  obtain ⟨gv, hfind⟩ := processOne_ok_find h hn hv
  have heq : storeFind st2 i = storeFind (storeErase st i) i :=
    insChain_find_other (processOne_effect hn hv hfind st2 h)
      (fun hmem => absurd (wf_inputs hwf hn hmem) (by omega))
  rw [heq, storeFind_erase_self]

theorem processOne_other {g : Graph} {tr : TransOps} {st st2 : Store} {i n : Nat}
    (h : processOne g tr st i = .ok st2) (hne : n ≠ i)
    (hnin : ∀ node, nodeAt g i = some node → node.isVar = false →
      n ∉ opInputsN node) :
    storeFind st2 n = storeFind st n := by
  obtain ⟨node, hn⟩ := processOne_ok_node h
  cases hv : node.isVar with
  | true =>
    rw [processOne_var hn hv] at h
    cases h
    rfl
  | false =>
    obtain ⟨gv, hfind⟩ := processOne_ok_find h hn hv
    rw [insChain_find_other (processOne_effect hn hv hfind st2 h) (hnin node hn hv),
      storeFind_erase_ne _ _ _ (fun he => hne he.symm)]

theorem processOne_keeps {g : Graph} {tr : TransOps} {st st2 : Store} {i n : Nat}
    (h : processOne g tr st i = .ok st2) (hne : n ≠ i)
    (hs : storeFind st n ≠ none) : storeFind st2 n ≠ none := by
  obtain ⟨node, hn⟩ := processOne_ok_node h
  cases hv : node.isVar with
  | true =>
    rw [processOne_var hn hv] at h
    cases h
    exact hs
  | false =>
    obtain ⟨gv, hfind⟩ := processOne_ok_find h hn hv
    refine insChain_find_some (processOne_effect hn hv hfind st2 h) ?_
    rw [storeFind_erase_ne _ _ _ (fun he => hne he.symm)]
    exact hs

theorem processLoop_append (g : Graph) (tr : TransOps) :
    ∀ (l₁ l₂ : List Nat) (st : Store),
      processLoop g tr (l₁ ++ l₂) st =
        processLoop g tr l₁ st >>= processLoop g tr l₂ := by
  intro l₁
  induction l₁ with
  | nil =>
    intro l₂ st
    rfl
  | cons a rest ih =>
    intro l₂ st
    cases hp : processOne g tr st a with
    | error e => simp [processLoop, hp, Bind.bind, Except.bind]
    | ok st1 => simp [processLoop, hp, Bind.bind, Except.bind, ih l₂ st1]

theorem processLoop_find_other {g : Graph} {tr : TransOps} {n : Nat} :
    ∀ (l : List Nat) (st gs : Store), processLoop g tr l st = .ok gs →
    (∀ m, m ∈ l → n ≠ m ∧
      ∀ node, nodeAt g m = some node → node.isVar = false → n ∉ opInputsN node) →
    storeFind gs n = storeFind st n := by
  intro l
  induction l with
  | nil =>
    intro st gs h _
    cases h
    rfl
  | cons a rest ih =>
    intro st gs h hcond
    simp only [processLoop] at h
    obtain ⟨st1, h1, h2⟩ := bindE_eq_ok h
    have ha := hcond a (by simp)
    rw [ih st1 gs h2 (fun m hm => hcond m (by simp [hm])),
      processOne_other h1 ha.1 ha.2]

theorem processLoop_keeps {g : Graph} {tr : TransOps} {v : Nat}
    (hv : isVarId g v = true) :
    ∀ (l : List Nat) (st gs : Store), processLoop g tr l st = .ok gs →
    storeFind st v ≠ none → storeFind gs v ≠ none := by
  intro l
  induction l with
  | nil =>
    intro st gs h hs
    cases h
    exact hs
  | cons a rest ih =>
    intro st gs h hs
    simp only [processLoop] at h
    obtain ⟨st1, h1, h2⟩ := bindE_eq_ok h
    refine ih st1 gs h2 ?_
    by_cases he : v = a
    · subst he
      obtain ⟨node, hn, hvar⟩ : ∃ node, nodeAt g v = some node ∧ node.isVar = true := by
        unfold isVarId at hv
        cases hn : nodeAt g v with
        | none => rw [hn] at hv; cases hv
        | some node => rw [hn] at hv; exact ⟨node, rfl, hv⟩
      rw [processOne_var hn hvar] at h1
      cases h1
      exact hs
    · exact processOne_keeps h1 he hs

theorem processLoop_error_split {g : Graph} {tr : TransOps} {e : BErr} :
    ∀ (l : List Nat) (st : Store), processLoop g tr l st = .error e →
    ∃ l₁ n l₂ st₁, l = l₁ ++ n :: l₂ ∧ processLoop g tr l₁ st = .ok st₁ ∧
      processOne g tr st₁ n = .error e := by
  intro l
  induction l with
  | nil =>
    intro st h
    simp only [processLoop] at h
    cases h
  | cons a rest ih =>
    intro st h
    simp only [processLoop] at h
    cases hp : processOne g tr st a with
    | error e2 =>
      rw [hp] at h
      have he : e2 = e := by
        simpa [Bind.bind, Except.bind] using h
      exact ⟨[], a, rest, st, rfl, rfl, by rw [hp, he]⟩
    | ok st1 =>
      rw [hp, ebind_ok] at h
      obtain ⟨l₁, n, l₂, st₁, hl, h1, h2⟩ := ih st1 h
      refine ⟨a :: l₁, n, l₂, st₁, by rw [hl]; rfl, ?_, h2⟩
      simp only [processLoop, hp, ebind_ok]
      exact h1

theorem processLoop_error_of {g : Graph} {tr : TransOps} {l₁ : List Nat} {n : Nat}
    {l₂ : List Nat} {st st₁ : Store} {e : BErr}
    (h1 : processLoop g tr l₁ st = .ok st₁)
    (h2 : processOne g tr st₁ n = .error e) :
    processLoop g tr (l₁ ++ n :: l₂) st = .error e := by
  rw [processLoop_append, h1, ebind_ok]
  simp only [processLoop, h2]
  rfl

theorem walkInputsOfId_eq_opInputsN {g : Graph} {m : Nat} {node : Node}
    (hn : nodeAt g m = some node) (hv : node.isVar = false)
    (htr : tracks g m = true) : walkInputsOfId g m = opInputsN node := by
  cases ho : node.op with
  | none =>
    rw [tracks_opNone g m node hn hv ho] at htr
    cases htr
  | some o =>
    have hw : walkInputsOfId g m = walkInputs o := by
      simp [walkInputsOfId, hn, hv, ho]
    rw [hw, opInputsN, ho]
    cases o
    case affine a mul add =>
      by_cases hm : mul = 0
      · subst hm
        rw [tracks_eq_op g m node _ hn hv ho] at htr
        simp [walkInputs] at htr
      · simp [walkInputs, opInputs, hm]
    all_goals rfl

theorem noCustomb_at {g : Graph} (h : noCustomb g = true) {n : Nat} {node : Node}
    (hn : nodeAt g n = some node) {o : OpK} (ho : node.op = some o) :
    notCustom o = true := by
  unfold noCustomb at h
  rw [List.all_eq_true] at h
  have h2 := h node (List.get?_mem hn)
  rw [ho] at h2
  exact h2

theorem onlyConsumerb_at {g : Graph} {x a : Nat} (h : onlyConsumerb g x a = true)
    {j : Nat} {node : Node} (hn : nodeAt g j = some node)
    (hx : x ∈ opInputsN node) : j = a := by
  unfold onlyConsumerb at h
  rw [List.all_eq_true] at h
  have h2 := h j (List.mem_range.mpr (nodeAt_lt_length hn))
  simp only [hn, decide_eq_true_eq] at h2
  exact h2 hx


/-! ### Which errors a reverse step can produce -/

theorem notBns_pure {α : Type} {a : α} {s : String} :
    (pure a : Except BErr α) ≠ .error (.bns s) := by
  simp [pure, Except.pure]

theorem notBns_ok {α : Type} {a : α} {s : String} :
    (Except.ok a : Except BErr α) ≠ .error (.bns s) := by
  simp

theorem notBns_bind {α β : Type} {x : Except BErr α} {f : α → Except BErr β}
    (hx : ∀ s, x ≠ .error (.bns s)) (hf : ∀ a s, f a ≠ .error (.bns s)) :
    ∀ s, (x >>= f) ≠ .error (.bns s) := by
  intro s h
  cases x with
  | error e =>
    simp only [Bind.bind, Except.bind] at h
    cases h
    exact hx s rfl
  | ok a =>
    simp only [Bind.bind, Except.bind] at h
    exact hf a s h

theorem notBns_liftV {x : Option Value} {s : String} :
    liftV x ≠ .error (.bns s) := by
  cases x <;> simp [liftV]

theorem notBns_valueOf {g : Graph} {i : Nat} {s : String} :
    valueOf g i ≠ .error (.bns s) := by
  unfold valueOf
  cases nodeAt g i <;> simp

theorem notBns_shapeOf {g : Graph} {i : Nat} {s : String} :
    shapeOf g i ≠ .error (.bns s) := by
  unfold shapeOf
  cases nodeAt g i <;> simp

theorem notBns_zerosLikeId {g : Graph} {i : Nat} {s : String} :
    zerosLikeId g i ≠ .error (.bns s) := by
  unfold zerosLikeId
  cases nodeAt g i <;> simp

theorem notBns_modifyGrad {g : Graph} {st : Store} {a : Nat}
    {f : Value → Except BErr Value} (hf : ∀ v s, f v ≠ .error (.bns s))
    {s : String} : modifyGrad g st a f ≠ .error (.bns s) := by
  unfold modifyGrad
  cases hfind : storeFind st a with
  | some v0 =>
    simp only [hfind]
    exact notBns_bind (fun _ => notBns_pure)
      (fun cur => notBns_bind (hf cur) (fun _ _ => notBns_pure)) s
  | none =>
    simp only [hfind]
    exact notBns_bind (fun _ => notBns_zerosLikeId)
      (fun cur => notBns_bind (hf cur) (fun _ _ => notBns_pure)) s

theorem notBns_accAdd {g : Graph} {st : Store} {a : Nat} {v : Value} {s : String} :
    accAdd g st a v ≠ .error (.bns s) :=
  notBns_modifyGrad (fun _ _ => notBns_liftV)

theorem notBns_accSub {g : Graph} {st : Store} {a : Nat} {v : Value} {s : String} :
    accSub g st a v ≠ .error (.bns s) :=
  notBns_modifyGrad (fun _ _ => notBns_liftV)

theorem notBns_catGrads {g : Graph} {dim : Nat} {grad : Value} :
    ∀ {args : List Nat} {s0 : Nat} {st : Store} {s : String},
      catGrads g dim grad args s0 st ≠ .error (.bns s) := by
  intro args
  induction args with
  | nil =>
    intro s0 st s
    simp [catGrads]
  | cons a rest ih =>
    intro s0 st s
    exact notBns_bind (fun _ => notBns_shapeOf)
      (fun ash => notBns_bind (fun _ => notBns_liftV)
        (fun agrad => notBns_bind (fun _ => notBns_accAdd)
          (fun st1 s2 => ih))) s

theorem notBns_squeezeN : ∀ {m : Nat} {v : Value} {s : String},
    squeezeN m v ≠ .error (.bns s) := by
  intro m
  induction m with
  | zero =>
    intro v s
    simp [squeezeN]
  | succ k ih =>
    intro v s
    exact notBns_bind (fun _ => notBns_liftV) (fun v2 s2 => ih) s

theorem notBns_reduceMMG {g : Graph} {st : Store} {arg : Nat} {rdims : List Nat}
    {nv gv : Value} {s : String} :
    reduceMaxMinGrad g st arg rdims nv gv ≠ .error (.bns s) := by
  unfold reduceMaxMinGrad
  exact notBns_bind (fun _ => notBns_shapeOf)
    (fun _ => notBns_bind (fun _ => notBns_valueOf)
      (fun _ => notBns_bind (fun _ => notBns_liftV)
        (fun _ => notBns_bind (fun _ => notBns_liftV)
          (fun _ => notBns_bind (fun _ => notBns_liftV)
            (fun _ => notBns_bind (fun _ => notBns_liftV)
              (fun _ s2 => notBns_modifyGrad
                (fun _ _ => notBns_bind (fun _ => notBns_liftV)
                  (fun _ _ => notBns_liftV) _))))))) s

theorem processOne_bns_iff {g : Graph} {tr : TransOps} {st : Store} {n : Nat}
    {s : String}
    (hnc : ∀ node o, nodeAt g n = some node → node.op = some o →
      notCustom o = true) :
    processOne g tr st n = .error (.bns s) ↔
    ∃ node o gv, nodeAt g n = some node ∧ node.isVar = false ∧
      storeFind st n = some gv ∧ node.op = some o ∧ bnsOf o = some s := by
  constructor
  · intro h
    cases hn : nodeAt g n with
    | none => simp [processOne, hn] at h
    | some node =>
      cases hv : node.isVar with
      | true =>
        rw [processOne_var hn hv] at h
        cases h
      | false =>
        cases hfind : storeFind st n with
        | none => simp [processOne, hn, hv, storeRemove, hfind] at h
        | some gv =>
          cases hop : node.op with
          | none =>
            simp only [processOne, hn, hv, Bool.false_eq_true, if_false,
              storeRemove_eq st n gv hfind, hop] at h
            cases h
          | some op =>
            refine ⟨node, op, gv, rfl, hv, rfl, hop, ?_⟩
            cases op with
          | binary lhs rhs k =>
            cases k with
            | add =>
              simp only [processOne, hn, hv, Bool.false_eq_true, if_false,
                storeRemove_eq st n gv hfind, hop] at h
              exact absurd h ((notBns_bind (fun _ => notBns_accAdd)
                (fun _ _ => notBns_accAdd)) s)
            | sub =>
              simp only [processOne, hn, hv, Bool.false_eq_true, if_false,
                storeRemove_eq st n gv hfind, hop] at h
              exact absurd h ((notBns_bind (fun _ => notBns_accAdd)
                (fun _ _ => notBns_accSub)) s)
            | mul =>
              simp only [processOne, hn, hv, Bool.false_eq_true, if_false,
                storeRemove_eq st n gv hfind, hop] at h
              exact absurd h ((notBns_bind (fun _ => notBns_valueOf)
                (fun _ => notBns_bind (fun _ => notBns_liftV)
                (fun _ => notBns_bind (fun _ => notBns_accAdd)
                (fun _ => notBns_bind (fun _ => notBns_valueOf)
                (fun _ => notBns_bind (fun _ => notBns_liftV)
                (fun _ _ => notBns_accAdd)))))) s)
            | div =>
              simp only [processOne, hn, hv, Bool.false_eq_true, if_false,
                storeRemove_eq st n gv hfind, hop] at h
              exact absurd h ((notBns_bind (fun _ => notBns_valueOf)
                (fun _ => notBns_bind (fun _ => notBns_liftV)
                (fun _ => notBns_bind (fun _ => notBns_accAdd)
                (fun _ => notBns_bind (fun _ => notBns_valueOf)
                (fun _ => notBns_bind (fun _ => notBns_liftV)
                (fun _ => notBns_bind (fun _ => notBns_liftV)
                (fun _ _ => notBns_accSub))))))) s)
          | unary a u =>
            cases u with
            | log =>
              simp only [processOne, hn, hv, Bool.false_eq_true, if_false,
                storeRemove_eq st n gv hfind, hop] at h
              exact absurd h ((notBns_bind (fun _ => notBns_valueOf)
                (fun _ => notBns_bind (fun _ => notBns_liftV)
                (fun _ _ => notBns_accAdd))) s)
            | sin =>
              simp only [processOne, hn, hv, Bool.false_eq_true, if_false,
                storeRemove_eq st n gv hfind, hop] at h
              exact absurd h ((notBns_bind (fun _ => notBns_valueOf)
                (fun _ => notBns_bind (fun _ => notBns_liftV)
                (fun _ _ => notBns_accAdd))) s)
            | cos =>
              simp only [processOne, hn, hv, Bool.false_eq_true, if_false,
                storeRemove_eq st n gv hfind, hop] at h
              exact absurd h ((notBns_bind (fun _ => notBns_valueOf)
                (fun _ => notBns_bind (fun _ => notBns_liftV)
                (fun _ _ => notBns_accSub))) s)
            | abs =>
              simp only [processOne, hn, hv, Bool.false_eq_true, if_false,
                storeRemove_eq st n gv hfind, hop] at h
              exact absurd h ((notBns_bind (fun _ => notBns_valueOf)
                (fun _ => notBns_bind (fun _ => notBns_liftV)
                (fun _ => notBns_bind (fun _ => notBns_liftV)
                (fun _ => notBns_bind (fun _ => notBns_liftV)
                (fun _ _ => notBns_accAdd))))) s)
            | exp =>
              simp only [processOne, hn, hv, Bool.false_eq_true, if_false,
                storeRemove_eq st n gv hfind, hop] at h
              exact absurd h ((notBns_bind (fun _ => notBns_liftV)
                (fun _ _ => notBns_accAdd)) s)
            | neg =>
              simp only [processOne, hn, hv, Bool.false_eq_true, if_false,
                storeRemove_eq st n gv hfind, hop] at h
              exact absurd h notBns_accSub
            | recip =>
              simp only [processOne, hn, hv, Bool.false_eq_true, if_false,
                storeRemove_eq st n gv hfind, hop] at h
              exact absurd h ((notBns_bind (fun _ => notBns_valueOf)
                (fun _ => notBns_bind (fun _ => notBns_liftV)
                (fun _ _ => notBns_accSub))) s)
            | relu =>
              simp only [processOne, hn, hv, Bool.false_eq_true, if_false,
                storeRemove_eq st n gv hfind, hop] at h
              exact absurd h ((notBns_bind (fun _ => notBns_valueOf)
                (fun _ => notBns_bind (fun _ => notBns_liftV)
                (fun _ => notBns_bind (fun _ => notBns_liftV)
                (fun _ _ => notBns_accAdd)))) s)
            | sqr =>
              simp only [processOne, hn, hv, Bool.false_eq_true, if_false,
                storeRemove_eq st n gv hfind, hop] at h
              exact absurd h ((notBns_bind (fun _ => notBns_valueOf)
                (fun _ => notBns_bind (fun _ => notBns_liftV)
                (fun _ _ => notBns_accAdd))) s)
            | sqrt =>
              simp only [processOne, hn, hv, Bool.false_eq_true, if_false,
                storeRemove_eq st n gv hfind, hop] at h
              exact absurd h ((notBns_bind (fun _ => notBns_liftV)
                (fun _ _ => notBns_accAdd)) s)
            | gelu =>
              simp only [processOne, hn, hv, Bool.false_eq_true, if_false,
                storeRemove_eq st n gv hfind, hop,
                        Except.error.injEq, BErr.bns.injEq] at h
              rw [← h]
              rfl
          | cmp a k =>
            simp only [processOne, hn, hv, Bool.false_eq_true, if_false,
              storeRemove_eq st n gv hfind, hop] at h
            exact absurd h notBns_ok
          | reduce a r d =>
            cases r with
            | sum =>
              simp only [processOne, hn, hv, Bool.false_eq_true, if_false,
                storeRemove_eq st n gv hfind, hop] at h
              exact absurd h ((notBns_bind (fun _ => notBns_shapeOf)
                (fun _ => notBns_bind (fun _ => notBns_liftV)
                (fun _ _ => notBns_accAdd))) s)
            | max =>
              simp only [processOne, hn, hv, Bool.false_eq_true, if_false,
                storeRemove_eq st n gv hfind, hop] at h
              exact absurd h notBns_reduceMMG
            | min =>
              simp only [processOne, hn, hv, Bool.false_eq_true, if_false,
                storeRemove_eq st n gv hfind, hop] at h
              exact absurd h notBns_reduceMMG
            | argMin =>
              simp only [processOne, hn, hv, Bool.false_eq_true, if_false,
                storeRemove_eq st n gv hfind, hop] at h
              exact absurd h notBns_ok
            | argMax =>
              simp only [processOne, hn, hv, Bool.false_eq_true, if_false,
                storeRemove_eq st n gv hfind, hop] at h
              exact absurd h notBns_ok
          | matmul lhs rhs =>
            simp only [processOne, hn, hv, Bool.false_eq_true, if_false,
              storeRemove_eq st n gv hfind, hop] at h
            exact absurd h ((notBns_bind (fun _ => notBns_valueOf)
              (fun _ => notBns_bind (fun _ => notBns_liftV)
              (fun _ => notBns_bind (fun _ => notBns_liftV)
              (fun _ => notBns_bind (fun _ => notBns_accAdd)
              (fun _ => notBns_bind (fun _ => notBns_valueOf)
              (fun _ => notBns_bind (fun _ => notBns_liftV)
              (fun _ => notBns_bind (fun _ => notBns_liftV)
              (fun _ _ => notBns_accAdd)))))))) s)
          | gather a idx dim =>
            simp only [processOne, hn, hv, Bool.false_eq_true, if_false,
              storeRemove_eq st n gv hfind, hop] at h
            exact absurd h ((notBns_bind (fun _ => notBns_valueOf)
              (fun _ _ => notBns_modifyGrad (fun _ _ => notBns_liftV))) s)
          | scatterAdd init idx src dim =>
            simp only [processOne, hn, hv, Bool.false_eq_true, if_false,
              storeRemove_eq st n gv hfind, hop] at h
            exact absurd h ((notBns_bind (fun _ => notBns_accAdd)
              (fun _ => notBns_bind (fun _ => notBns_valueOf)
              (fun _ => notBns_bind (fun _ => notBns_liftV)
              (fun _ _ => notBns_accAdd)))) s)
          | indexSelect a idx dim =>
            simp only [processOne, hn, hv, Bool.false_eq_true, if_false,
              storeRemove_eq st n gv hfind, hop] at h
            exact absurd h ((notBns_bind (fun _ => notBns_valueOf)
              (fun _ _ => notBns_modifyGrad (fun _ _ => notBns_liftV))) s)
          | indexAdd init idx src dim =>
            simp only [processOne, hn, hv, Bool.false_eq_true, if_false,
              storeRemove_eq st n gv hfind, hop] at h
            exact absurd h ((notBns_bind (fun _ => notBns_accAdd)
              (fun _ => notBns_bind (fun _ => notBns_valueOf)
              (fun _ => notBns_bind (fun _ => notBns_liftV)
              (fun _ _ => notBns_accAdd)))) s)
          | whereCond p a b =>
            simp only [processOne, hn, hv, Bool.false_eq_true, if_false,
              storeRemove_eq st n gv hfind, hop] at h
            exact absurd h ((notBns_bind (fun _ => notBns_valueOf)
              (fun _ => notBns_bind (fun _ => notBns_liftV)
              (fun _ => notBns_bind (fun _ => notBns_accAdd)
              (fun _ => notBns_bind (fun _ => notBns_liftV)
              (fun _ _ => notBns_accAdd))))) s)
          | conv1d a k p q =>
            simp only [processOne, hn, hv, Bool.false_eq_true, if_false,
              storeRemove_eq st n gv hfind, hop,
                    Except.error.injEq, BErr.bns.injEq] at h
            rw [← h]
            rfl
          | conv2d a k p q =>
            simp only [processOne, hn, hv, Bool.false_eq_true, if_false,
              storeRemove_eq st n gv hfind, hop,
                    Except.error.injEq, BErr.bns.injEq] at h
            rw [← h]
            rfl
          | avgPool2d a k q =>
            simp only [processOne, hn, hv, Bool.false_eq_true, if_false,
              storeRemove_eq st n gv hfind, hop,
                    Except.error.injEq, BErr.bns.injEq] at h
            rw [← h]
            rfl
          | maxPool2d a k q =>
            simp only [processOne, hn, hv, Bool.false_eq_true, if_false,
              storeRemove_eq st n gv hfind, hop,
                    Except.error.injEq, BErr.bns.injEq] at h
            rw [← h]
            rfl
          | upsampleNearest2d a =>
            simp only [processOne, hn, hv, Bool.false_eq_true, if_false,
              storeRemove_eq st n gv hfind, hop,
                    Except.error.injEq, BErr.bns.injEq] at h
            rw [← h]
            rfl
          | cat args dim =>
            simp only [processOne, hn, hv, Bool.false_eq_true, if_false,
              storeRemove_eq st n gv hfind, hop] at h
            exact absurd h notBns_catGrads
          | affine a mul add =>
            simp only [processOne, hn, hv, Bool.false_eq_true, if_false,
              storeRemove_eq st n gv hfind, hop] at h
            exact absurd h notBns_accAdd
          | toDType a =>
            simp only [processOne, hn, hv, Bool.false_eq_true, if_false,
              storeRemove_eq st n gv hfind, hop] at h
            exact absurd h (notBns_modifyGrad (fun _ _ => notBns_liftV))
          | copy a =>
            simp only [processOne, hn, hv, Bool.false_eq_true, if_false,
              storeRemove_eq st n gv hfind, hop] at h
            exact absurd h notBns_accAdd
          | broadcast a =>
            simp only [processOne, hn, hv, Bool.false_eq_true, if_false,
              storeRemove_eq st n gv hfind, hop] at h
            exact absurd h ((notBns_bind (fun _ => notBns_shapeOf)
              (fun _ => notBns_bind (fun _ => notBns_liftV)
              (fun _ => notBns_bind (fun _ => notBns_squeezeN)
              (fun _ _ => notBns_modifyGrad (fun _ _ => notBns_bind (fun _ => notBns_liftV) (fun _ _ => notBns_liftV) _))))) s)
          | narrow a dim st0 len =>
            simp only [processOne, hn, hv, Bool.false_eq_true, if_false,
              storeRemove_eq st n gv hfind, hop] at h
            refine absurd h (notBns_bind (fun _ => notBns_shapeOf) (fun ad => ?_) s)
            cases (if st0 = 0 then none else some (zerosV (List.set ad dim st0))) <;>
              cases (if List.getD ad dim 0 - st0 - len = 0 then none
                else some (zerosV (List.set ad dim (List.getD ad dim 0 - st0 - len)))) <;>
              first
                | exact notBns_bind (fun _ => notBns_pure) (fun _ _ => notBns_accAdd)
                | exact notBns_bind (fun _ => notBns_liftV) (fun _ _ => notBns_accAdd)
          | reshape a =>
            simp only [processOne, hn, hv, Bool.false_eq_true, if_false,
              storeRemove_eq st n gv hfind, hop] at h
            exact absurd h ((notBns_bind (fun _ => notBns_shapeOf)
              (fun _ => notBns_bind (fun _ => notBns_liftV)
              (fun _ _ => notBns_accAdd))) s)
          | toDevice a =>
            simp only [processOne, hn, hv, Bool.false_eq_true, if_false,
              storeRemove_eq st n gv hfind, hop] at h
            exact absurd h (notBns_modifyGrad (fun _ _ => notBns_liftV))
          | transpose a d1 d2 =>
            simp only [processOne, hn, hv, Bool.false_eq_true, if_false,
              storeRemove_eq st n gv hfind, hop] at h
            exact absurd h ((notBns_bind (fun _ => notBns_liftV)
              (fun _ _ => notBns_accAdd)) s)
          | elu a al =>
            simp only [processOne, hn, hv, Bool.false_eq_true, if_false,
              storeRemove_eq st n gv hfind, hop,
                    Except.error.injEq, BErr.bns.injEq] at h
            rw [← h]
            rfl
          | customOp1 a c =>
            exact absurd (hnc node _ hn hop) (by simp [notCustom])
          | customOp2 a1 a2 c =>
            exact absurd (hnc node _ hn hop) (by simp [notCustom])
          | customOp3 a1 a2 a3 c =>
            exact absurd (hnc node _ hn hop) (by simp [notCustom])
  · rintro ⟨node, o, gv, hn, hv, hfind, hop, hbns⟩
    cases o with
    | conv1d a k p q =>
      simp only [bnsOf, Option.some.injEq] at hbns
      simp only [processOne, hn, hv, Bool.false_eq_true, if_false,
        storeRemove_eq st n gv hfind, hop]
      rw [hbns]
    | conv2d a k p q =>
      simp only [bnsOf, Option.some.injEq] at hbns
      simp only [processOne, hn, hv, Bool.false_eq_true, if_false,
        storeRemove_eq st n gv hfind, hop]
      rw [hbns]
    | avgPool2d a k q =>
      simp only [bnsOf, Option.some.injEq] at hbns
      simp only [processOne, hn, hv, Bool.false_eq_true, if_false,
        storeRemove_eq st n gv hfind, hop]
      rw [hbns]
    | maxPool2d a k q =>
      simp only [bnsOf, Option.some.injEq] at hbns
      simp only [processOne, hn, hv, Bool.false_eq_true, if_false,
        storeRemove_eq st n gv hfind, hop]
      rw [hbns]
    | upsampleNearest2d a =>
      simp only [bnsOf, Option.some.injEq] at hbns
      simp only [processOne, hn, hv, Bool.false_eq_true, if_false,
        storeRemove_eq st n gv hfind, hop]
      rw [hbns]
    | elu a al =>
      simp only [bnsOf, Option.some.injEq] at hbns
      simp only [processOne, hn, hv, Bool.false_eq_true, if_false,
        storeRemove_eq st n gv hfind, hop]
      rw [hbns]
    | binary lhs rhs k =>
      simp [bnsOf] at hbns
    | cmp a k =>
      simp [bnsOf] at hbns
    | reduce a r d =>
      simp [bnsOf] at hbns
    | matmul lhs rhs =>
      simp [bnsOf] at hbns
    | gather a idx dim =>
      simp [bnsOf] at hbns
    | scatterAdd i1 i2 i3 dim =>
      simp [bnsOf] at hbns
    | indexSelect a idx dim =>
      simp [bnsOf] at hbns
    | indexAdd i1 i2 i3 dim =>
      simp [bnsOf] at hbns
    | whereCond p a b =>
      simp [bnsOf] at hbns
    | cat args dim =>
      simp [bnsOf] at hbns
    | affine a mul add =>
      simp [bnsOf] at hbns
    | toDType a =>
      simp [bnsOf] at hbns
    | copy a =>
      simp [bnsOf] at hbns
    | broadcast a =>
      simp [bnsOf] at hbns
    | narrow a dim st0 len =>
      simp [bnsOf] at hbns
    | reshape a =>
      simp [bnsOf] at hbns
    | toDevice a =>
      simp [bnsOf] at hbns
    | transpose a d1 d2 =>
      simp [bnsOf] at hbns
    | customOp1 a c =>
      simp [bnsOf] at hbns
    | customOp2 a1 a2 c =>
      simp [bnsOf] at hbns
    | customOp3 a1 a2 a3 c =>
      simp [bnsOf] at hbns
    | unary a u =>
      cases u with
      | gelu =>
        simp only [bnsOf, Option.some.injEq] at hbns
        simp only [processOne, hn, hv, Bool.false_eq_true, if_false,
          storeRemove_eq st n gv hfind, hop]
        rw [hbns]
      | log =>
        simp [bnsOf] at hbns
      | sin =>
        simp [bnsOf] at hbns
      | cos =>
        simp [bnsOf] at hbns
      | abs =>
        simp [bnsOf] at hbns
      | exp =>
        simp [bnsOf] at hbns
      | neg =>
        simp [bnsOf] at hbns
      | recip =>
        simp [bnsOf] at hbns
      | relu =>
        simp [bnsOf] at hbns
      | sqr =>
        simp [bnsOf] at hbns
      | sqrt =>
        simp [bnsOf] at hbns

/-! ### C3 — `sorted_nodes` membership, uniqueness, and order -/

/-- Counterexample to C3 as stated: in `gC3` (an `Affine{mul = 0}` over a
variable) the root node 1 is not a variable and has a variable leaf ancestor
through its op inputs, yet `sorted_nodes` omits the node entirely — the
walker prunes the affine argument, so the node does not track gradients. -/
theorem c3_counterexample :
    isVarId gC3 1 = false ∧ varAncestor gC3 1 = true ∧ 1 ∉ sortedNodes gC3 1 := by
  decide

/-- **C3** (amended): on graphs with the monotonic-id invariant,
`sorted_nodes(root)` contains a node iff the walker reaches it from the root
(variables are leaves and `Affine{mul == 0}` prunes its argument) and the
node's walker subtree contains a variable; ids are unique; the root comes
first; and every node precedes its walker inputs in the list. -/
theorem c3_sorted_nodes (g : Graph) (root : Nat) (hwf : wfb g = true) :
    c3Spec g root :=
  ⟨fun n => mem_sortedNodes_iff hwf root n, sortedNodes_nodup hwf root,
    fun hne => sortedNodes_head hwf root hne, sortedNodes_topo hwf root⟩

/-- Witness for C3 on the concrete graph `gC3w` (`sqr` of a variable). -/
theorem c3_sorted_nodes_witness : wfb gC3w = true ∧ c3Spec gC3w 1 :=
  ⟨by decide, c3_sorted_nodes gC3w 1 (by decide)⟩


/-! ### Reachability composition -/

theorem Reaches_trans {g : Graph} : ∀ {a b c : Nat}, Reaches g a b →
    Reaches g b c → Reaches g a c := by
  intro a b c h
  induction h with
  | refl => exact fun h2 => h2
  | step node o hn hv ho hj _ ih =>
    exact fun h2 => Reaches.step node o hn hv ho hj (ih h2)

theorem walkInputsOfId_mem {g : Graph} {m y : Nat} (hy : y ∈ walkInputsOfId g m) :
    ∃ node o, nodeAt g m = some node ∧ node.isVar = false ∧ node.op = some o ∧
      y ∈ walkInputs o := by
  unfold walkInputsOfId at hy
  cases hn : nodeAt g m with
  | none => simp [hn] at hy
  | some node =>
    simp only [hn] at hy
    cases hv : node.isVar with
    | true => simp [hv] at hy
    | false =>
      simp only [hv, Bool.false_eq_true, if_false] at hy
      cases ho : node.op with
      | none => simp [ho] at hy
      | some o =>
        simp only [ho] at hy
        exact ⟨node, o, rfl, hv, ho, hy⟩

/-! ### C1 — the shape of the returned gradient map -/

/-- C1 counterexample: for a `Cmp` over a single variable (graph `gC1`),
backward succeeds but returns the empty store — the variable `0` is in the
sorted list and is processed by the reverse pass, yet the map holds no
accumulated gradient for it, refuting "maps every variable reached during
the reverse pass to its accumulated gradient". -/
theorem c1_counterexample :
    backward gC1 TransOps.trivialOps 1 = .ok [] ∧ isVarId gC1 0 = true ∧
      0 ∈ sortedNodes gC1 1 ∧ storeFind [] 0 = none := by
  refine ⟨?_, by decide, by decide, rfl⟩
  with_unfolding_all rfl

/-- **C1** (amended): on graphs with the monotonic-id invariant, backward
seeds `grads[root] = ones_like(root)` and runs the reverse loop over the
sorted nodes; on success no processed non-variable node keeps an entry; and
any entry a variable holds at an intermediate state of the pass survives to
the returned map (variables never lose their entry — but a variable that
never receives a contribution simply has none). -/
theorem c1_backward (g : Graph) (tr : TransOps) (root : Nat)
    (hwf : wfb g = true) : c1Spec g tr root := by
  refine ⟨?_, ?_, ?_⟩
  · intro n0 hn0
    simp only [backward, hn0]
  · intro gs h n hmem hvar
    cases hn0 : nodeAt g root with
    | none =>
      simp only [backward, hn0] at h
      cases h
    | some n0 =>
      simp only [backward, hn0] at h
      obtain ⟨l₁, l₂, hsplit⟩ := List.append_of_mem hmem
      rw [hsplit, processLoop_append] at h
      obtain ⟨st₁, h1, h2⟩ := bindE_eq_ok h
      simp only [processLoop] at h2
      obtain ⟨stn, hpn, h3⟩ := bindE_eq_ok h2
      obtain ⟨noden, hnn⟩ := processOne_ok_node hpn
      have hvarn : noden.isVar = false := by
        unfold isVarId at hvar
        rw [hnn] at hvar
        exact hvar
      have hnd := sortedNodes_nodup hwf root
      rw [hsplit] at hnd
      have hnotin : n ∉ l₂ :=
        (List.nodup_cons.mp (List.nodup_append.mp hnd).2.1).1
      have hfound : storeFind stn n = none :=
        processOne_find_self hwf hnn hvarn hpn
      have hcond : ∀ m, m ∈ l₂ → n ≠ m ∧ ∀ node2, nodeAt g m = some node2 →
          node2.isVar = false → n ∉ opInputsN node2 := by
        intro m hm
        constructor
        · intro he
          exact hnotin (by rw [he]; exact hm)
        · intro node2 hmn hmv hnin
          have hmmem : m ∈ sortedNodes g root := by
            rw [hsplit]
            exact List.mem_append_right _ (List.mem_cons_of_mem n hm)
          have htrm : tracks g m = true :=
            ((mem_sortedNodes_iff hwf root m).mp hmmem).2
          have hwio : n ∈ walkInputsOfId g m := by
            rw [walkInputsOfId_eq_opInputsN hmn hmv htrm]
            exact hnin
          obtain ⟨p, q, hl2⟩ := List.append_of_mem hm
          have hsplit2 : sortedNodes g root = (l₁ ++ n :: p) ++ m :: q := by
            rw [hsplit, hl2]
            simp
          have hq := sortedNodes_topo hwf root _ m q hsplit2 n hwio hmem
          exact hnotin (by
            rw [hl2]
            exact List.mem_append_right _ (List.mem_cons_of_mem m hq))
      rw [processLoop_find_other l₂ stn gs h3 hcond]
      exact hfound
  · intro gs n0 h hn0 v hv l₁ l₂ st₁ hsplit h1 hne
    simp only [backward, hn0] at h
    rw [hsplit, processLoop_append, h1, ebind_ok] at h
    exact processLoop_keeps hv l₂ st₁ gs h hne

/-- C1 witness: the amended statement instantiated on `x + x` over one
variable. -/
theorem c1_backward_witness : wfb gC1w = true ∧ c1Spec gC1w TransOps.trivialOps 1 :=
  ⟨by decide, c1_backward gC1w TransOps.trivialOps 1 (by decide)⟩

/-! ### C2 — which reverse steps fail with `BackwardNotSupported` -/

/-- C2 counterexample: in `gC2` a `Cmp` sits over a `conv1d` of a variable.
The conv node (id 2) is in the sorted list, so the reverse pass reaches and
processes it, yet backward does not surface `BackwardNotSupported("conv1d")`
— the `Cmp` contributed no gradient, so the step panics on
`grads.remove(node).unwrap()` instead. -/
theorem c2_counterexample :
    2 ∈ sortedNodes gC2 3 ∧
      nodeAt gC2 2 = some (onode [1] [1] (.conv1d 0 1 0 1)) ∧
      backward gC2 TransOps.trivialOps 3 = .error .panicGrad := by
  refine ⟨by decide, rfl, ?_⟩
  with_unfolding_all rfl

/-- **C2** (amended): without user custom ops, backward returns
`BackwardNotSupported(name)` exactly when the reverse loop reaches a
processed non-variable node that still holds an accumulated gradient and
whose tape entry is one of the seven unsupported built-ins; and a
`Cmp`/`ArgMin`/`ArgMax` node holding a gradient is processed successfully,
contributing nothing. -/
theorem c2_bns (g : Graph) (tr : TransOps) (root : Nat) (rootNode : Node)
    (hnc : noCustomb g = true) (hroot : nodeAt g root = some rootNode) :
    c2Spec g tr root rootNode := by
  constructor
  · intro s
    constructor
    · intro h
      simp only [backward, hroot] at h
      obtain ⟨l₁, n, l₂, st₁, hl, h1, h2⟩ := processLoop_error_split _ _ h
      obtain ⟨node, o, gv, hn, hv, hf, ho, hbns⟩ :=
        (processOne_bns_iff (fun node o hn ho => noCustomb_at hnc hn ho)).mp h2
      exact ⟨l₁, n, l₂, st₁, node, o, hl, h1, hn, hv, ⟨gv, hf⟩, ho, hbns⟩
    · rintro ⟨l₁, n, l₂, st₁, node, o, hl, h1, hn, hv, ⟨gv, hf⟩, ho, hbns⟩
      simp only [backward, hroot]
      rw [hl]
      exact processLoop_error_of h1
        ((processOne_bns_iff (fun node2 o2 hn2 ho2 => noCustomb_at hnc hn2 ho2)).mpr
          ⟨node, o, gv, hn, hv, hf, ho, hbns⟩)
  · intro st n node gv hn hv hcases hf
    rcases hcases with ⟨a, k, ho⟩ | ⟨a, d, ho⟩ | ⟨a, d, ho⟩ <;>
      simp [processOne, hn, hv, storeRemove_eq st n gv hf, ho]

/-- C2 witness: the amended statement instantiated on `gelu` of a variable
(`gC2w`), whose backward does report `BackwardNotSupported("gelu")`. -/
theorem c2_bns_witness :
    noCustomb gC2w = true ∧ c2Spec gC2w TransOps.trivialOps 1 (onode [1] [1] (.unary 0 .gelu)) :=
  ⟨by decide, c2_bns gC2w TransOps.trivialOps 1 (onode [1] [1] (.unary 0 .gelu))
    (by decide) rfl⟩

/-! ### C5 — `Affine` with `mul == 0` prunes its argument -/

/-- **C5**: the walker returns immediately on an `Affine{mul = 0}` node
without descending into or marking its argument; under the monotonic-id
invariant, when that affine node is the only consumer of `x` and `x` is not
the root, the returned store has no entry for `x` and `x` is not among the
sorted nodes (and in general no walker-unreachable node gains an entry);
and a reverse step over an `Affine` node accumulates `g · mul` elementwise
into its argument. -/
theorem c5_affine (g : Graph) (tr : TransOps) (root a x : Nat) (anode : Node)
    (hwf : wfb g = true) (hna : nodeAt g a = some anode) {add0 : ℚ}
    (hopa : anode.op = some (.affine x 0 add0))
    (honly : onlyConsumerb g x a = true) (hxr : x ≠ root) :
    c5Spec g tr root a x := by
  have hgen : ∀ gs y, backward g tr root = .ok gs → ¬ Reaches g root y →
      y ≠ root → storeFind gs y = none ∧ y ∉ sortedNodes g root := by
    intro gs y h hnr hyr
    have hynot : y ∉ sortedNodes g root := fun hmem =>
      hnr ((mem_sortedNodes_iff hwf root y).mp hmem).1
    cases hn0 : nodeAt g root with
    | none =>
      simp only [backward, hn0] at h
      cases h
    | some n0 =>
      simp only [backward, hn0] at h
      have hcond : ∀ m, m ∈ sortedNodes g root → y ≠ m ∧
          ∀ node2, nodeAt g m = some node2 → node2.isVar = false →
            y ∉ opInputsN node2 := by
        intro m hm
        have hrem : Reaches g root m := ((mem_sortedNodes_iff hwf root m).mp hm).1
        constructor
        · intro he
          exact hnr (by rw [he]; exact hrem)
        · intro node2 hmn hmv hyin
          have htrm : tracks g m = true :=
            ((mem_sortedNodes_iff hwf root m).mp hm).2
          have hwio : y ∈ walkInputsOfId g m := by
            rw [walkInputsOfId_eq_opInputsN hmn hmv htrm]
            exact hyin
          obtain ⟨node3, o3, hn3, hv3, ho3, hy3⟩ := walkInputsOfId_mem hwio
          exact hnr (Reaches_trans hrem
            (Reaches.step node3 o3 hn3 hv3 ho3 hy3 (Reaches.refl y)))
      refine ⟨?_, hynot⟩
      rw [processLoop_find_other _ _ _ h hcond,
        storeFind_insert_ne _ _ _ _ (fun he => hyr he.symm)]
      rfl
  have hxnr : ¬ Reaches g root x := by
    intro hre
    by_cases hxe : root = x
    · exact hxr hxe.symm
    · obtain ⟨j, nodej, oj, hnj, hvj, hoj, hxin⟩ := Reaches_last_edge hre hxe
      have hja : j = a := onlyConsumerb_at honly hnj
        (by simp only [opInputsN, hoj]; exact walkInputs_subset oj x hxin)
      subst hja
      rw [hna] at hnj
      cases hnj
      rw [hopa] at hoj
      cases hoj
      simp [walkInputs] at hxin
  refine ⟨?_, fun gs h => hgen gs x h hxnr hxr, hgen, ?_⟩
  · intro node arg add fuel seen nodes hn hv ho hseen
    simp [walkF, hseen, hn, hv, ho, walkInputs]
  · intro st i node xnode mul add xv gv hn hv ho hx hxv hfind hfresh hxi hsh
    have hstep : processOne g tr st i =
        accAdd g (storeErase st i) x (valueAffine gv mul 0) := by
      simp only [processOne, hn, hv, Bool.false_eq_true, if_false,
        storeRemove_eq st i gv hfind, ho]
    have hagsh : (valueAffine gv mul 0).shape = xv.shape := hsh
    obtain ⟨r, hr_eq, hr_sh, hr_len, hr_pt⟩ :=
      map2Broadcast_same (· + ·) (zerosV xv.shape) (valueAffine gv mul 0)
        xv.shape rfl hagsh
    have l4 : accAdd g (storeErase st i) x (valueAffine gv mul 0) =
        .ok (storeInsert (storeErase st i) x r) := by
      unfold accAdd modifyGrad
      rw [storeFind_erase_ne st i x (fun he => hxi he.symm), hfresh]
      simp only [zerosLikeId, hx, hxv]
      rw [ebind_ok]
      rw [show valueAdd (zerosV xv.shape) (valueAffine gv mul 0) = some r from hr_eq]
      rfl
    refine ⟨storeInsert (storeErase st i) x r, r, ?_,
      storeFind_insert_self _ _ _, hr_sh, hr_len, ?_⟩
    · rw [hstep, l4]
    · intro nn hnn
      have e0 : (zerosV xv.shape).data.getD nn 0 = 0 := getD_replicate _ _ _ hnn
      have hagv : (valueAffine gv mul 0).data.getD nn 0 =
          gv.data.getD nn 0 * mul := by
        simp only [valueAffine]
        by_cases hlen : nn < gv.data.length
        · rw [getD_in_map _ _ _ hlen]
          ring
        · rw [List.getD_eq_default _ _ (by simpa using Nat.le_of_not_lt hlen),
            List.getD_eq_default _ _ (Nat.le_of_not_lt hlen)]
          ring
      rw [hr_pt nn hnn, e0, hagv]
      ring

/-- C5 witness: instantiated on the concrete `Affine{mul = 0}` graph `gC3`
(variable 0 consumed only by the affine node 1, the root). -/
theorem c5_affine_witness :
    wfb gC3 = true ∧ onlyConsumerb gC3 0 1 = true ∧
      c5Spec gC3 TransOps.trivialOps 1 1 0 :=
  ⟨by decide, by decide,
    c5_affine gC3 TransOps.trivialOps 1 1 0 (onode [1] [7] (.affine 0 0 7))
      (by decide) rfl rfl (by decide) (by decide)⟩

end MyCandle
